import Mathlib

/-!
# A verification model of the `Sequence` frame-sequence module

This file is a shallow embedding, in Lean 4, of the JavaScript module
`src/index.js` of the `seq` repository (the `Sequence` factory for
sequences of animation frame numbers), together with proofs of the
spec-level properties of that module.

Modelling conventions:

* JS numbers that the code only ever uses at integer values are `Int`
  (`Math.trunc` on an integer is the identity and is dropped).
* The floating-point arithmetic inside `subsample` is modelled by exact
  rational arithmetic (`ℚ`): `gap = n / count`, `pos = gap / 2 + i * gap`.
* A thrown JS exception is an `Except.error` carrying a `JsError`:
  `RangeError(msg)` for the malformed-spec throw in `_flatten`, and
  `TypeError` for the implicit `TypeError` raised by
  `_frames.push(...undefined)` when `_flatten` falls off the end of its
  `if`/`else if` chain and returns `undefined`.
* `[...new Set(xs)].sort((a, b) => (a < b ? -1 : 1))` is modelled by
  `dedupSort`: deduplicate, then sort ascending.  For a duplicate-free
  list the comparator is a strict total order and any JS sort returns the
  ascending enumeration of the element set, which is what `dedupSort`
  computes.
* Recursions that are not structural in the source (digit printing,
  splitting on separator runs, the `for` loop of `_range`) take an
  explicit fuel argument large enough to never run out, so that every
  definition reduces by `rfl`/`decide` on concrete input.
-/

/-! ## Decimal digits: JS template-string rendering and regex-digit scanning -/

/-- The ASCII character of the decimal digit `d` (for `d ≤ 9`). -/
def digChar (d : Nat) : Char := Char.ofNat (48 + d)

/-- The numeric value of an ASCII digit character. -/
def digVal (c : Char) : Nat := c.toNat - 48

/-- The regex class `\d` = `[0-9]` (code points 48–57). -/
def isDig (c : Char) : Bool := 48 ≤ c.toNat && c.toNat ≤ 57

/-- Decimal digits of `n`, most significant first, with fuel (the digits of
JS `${n}` for a natural `n`). The fuel is never exhausted when `n < fuel`. -/
def natStrGo : Nat → Nat → List Char
  | 0, _ => []
  | fuel + 1, n =>
    if n < 10 then [digChar n]
    else natStrGo fuel (n / 10) ++ [digChar (n % 10)]

/-- Decimal digits of a natural number, most significant first. -/
def natStr (n : Nat) : List Char := natStrGo (n + 1) n

/-- JS `${i}` for an integer value `i`. -/
def intStr (i : Int) : List Char :=
  if i < 0 then '-' :: natStr i.natAbs else natStr i.toNat

/-- Greedy scanner for a run of decimal digits, accumulating their value
(the `\d+` / `[0-9]*` pieces of `PROGRESSION_SPEC_REGEX`). -/
def digitsGo (acc : Nat) : List Char → Nat × List Char
  | [] => (acc, [])
  | c :: cs => if isDig c then digitsGo (10 * acc + digVal c) cs else (acc, c :: cs)

/-- `\d+` at the head of the input: one or more digits, greedy. -/
def digitsP (cs : List Char) : Option (Nat × List Char) :=
  match cs with
  | c :: _ => if isDig c then some (digitsGo 0 cs) else none
  | [] => none

/-- `-?\d+` at the head of the input (the `first` and `last` fields of
`PROGRESSION_SPEC_REGEX`). -/
def signedIntP (cs : List Char) : Option (Int × List Char) :=
  match cs with
  | [] => none
  | c :: rest =>
    if c = '-' then (digitsP rest).map (fun p => (-(p.1 : Int), p.2))
    else (digitsP cs).map (fun p => ((p.1 : Int), p.2))

/-- `(?<step>[1-9][0-9]*)$`: a positive integer with no leading zero
(first char in `[1-9]`, code points 49–57), consuming the whole remainder
of the token. -/
def stepP (cs : List Char) : Option Int :=
  match cs with
  | c :: _ =>
    if 49 ≤ c.toNat ∧ c.toNat ≤ 57 then
      match digitsGo 0 cs with
      | (n, []) => some ((n : Int))
      | _ => none
    else none
  | [] => none

/-- The anchored match of
`PROGRESSION_SPEC_REGEX = /^(?<first>-?\d+)(-(?<last>-?\d+)(x(?<step>[1-9][0-9]*))?)?$/`
on one token, returning the `first`, `last` and `step` groups.  The regex
is anchored and its backtracking never helps (after a greedy digit run the
next character must be `-`, `x` or the end), so this deterministic
recursive-descent scan accepts and rejects exactly the same tokens. -/
def matchTok (cs : List Char) : Option (Int × Option Int × Option Int) :=
  match signedIntP cs with
  | none => none
  | some (f, rest) =>
    match rest with
    | [] => some (f, none, none)
    | c :: rest₂ =>
      if c = '-' then
        match signedIntP rest₂ with
        | none => none
        | some (l, rest₃) =>
          match rest₃ with
          | [] => some (f, some l, none)
          | c' :: rest₄ =>
            if c' = 'x' then
              match stepP rest₄ with
              | some st => some (f, some l, some st)
              | none => none
            else none
      else none

/-! ## Splitting a spec string on `SPLIT_SPEC_REGEX = /[\s,,]+/` -/

/-- The separator class of `SPLIT_SPEC_REGEX`: the comma (code point 44)
or any code point of the regex whitespace class `\\s` (tab 9, LF 10,
VT 11, FF 12, CR 13, space 32, NBSP 160, 5760, 8192-8202, LS 8232,
PS 8233, 8239, 8287, 12288, BOM 65279). -/
def isSep (c : Char) : Bool :=
  let n := c.toNat
  n == 44 || n == 9 || n == 10 || n == 11 || n == 12 || n == 13 || n == 32 ||
  n == 160 || n == 5760 || (8192 ≤ n && n ≤ 8202) || n == 8232 || n == 8233 ||
  n == 8239 || n == 8287 || n == 12288 || n == 65279

/-- JS `spec.split(/[\s,]+/)` with fuel: pieces between maximal separator
runs, keeping the empty pieces that JS `split` produces at the boundaries
(so `"1,".split` is `["1", ""]` and `"".split` is `[""]`). -/
def splitGo : Nat → List Char → List Char → List (List Char)
  | 0, acc, _ => [acc.reverse]
  | fuel + 1, acc, l =>
    match l with
    | [] => [acc.reverse]
    | c :: cs =>
      if isSep c then acc.reverse :: splitGo fuel [] (cs.dropWhile isSep)
      else splitGo fuel (c :: acc) cs

/-- The token list of a spec string. -/
def splitSpec (s : String) : List (List Char) := splitGo (s.data.length + 1) [] s.data

/-! ## `_range` -/

/-- The loop `for (let i = first; i <= last; i += stepVal)` of `_range`,
with fuel; `stepVal ≥ 1` keeps the fuel `(hi - lo).toNat + 1` sufficient. -/
def rangeGo : Nat → Int → Int → Int → List Int
  | 0, _, _, _ => []
  | fuel + 1, i, hi, stepv => if i ≤ hi then i :: rangeGo fuel (i + stepv) hi stepv else []

/-- `_range(first, last, step)`: `last`/`step` default to `first`/`1` when
absent (`undefined`), `first` and `last` are swapped into order, the step is
clamped to at least `1`, and the inclusive stepped range is produced. -/
def jsRange (first : Int) (lastA stepA : Option Int) : List Int :=
  let l := lastA.getD first
  let s := stepA.getD 1
  let lo := min first l
  let hi := max first l
  let sv := max 1 s
  rangeGo ((hi - lo).toNat + 1) lo hi sv

/-! ## Canonicalisation: `[...new Set(xs)].sort((a, b) => (a < b ? -1 : 1))` -/

/-- Ascending sort (JS `.sort((a, b) => (a < b ? -1 : 1))` on a list of
numbers). -/
def sortAsc (l : List Int) : List Int := l.insertionSort (· ≤ ·)

/-- Deduplicate then sort ascending: the canonical frame list of an input
list, as produced by `[...new Set(xs)].sort((a, b) => (a < b ? -1 : 1))`. -/
def dedupSort (l : List Int) : List Int := sortAsc l.dedup

/-! ## The progression analyzer: `_isProgression` and `_progressions` -/

/-- Every adjacent pair of the list differs by exactly `g`. -/
def constGap (g : Int) : List Int → Bool
  | a :: b :: rest => (b - a == g) && constGap g (b :: rest)
  | _ => true

/-- `_isProgression`: lists of fewer than 3 elements are trivially
progressions; otherwise every consecutive gap must equal the first gap. -/
def isProgression (arr : List Int) : Bool :=
  match arr with
  | a :: b :: c :: rest => constGap (b - a) (a :: b :: c :: rest)
  | _ => true

/-- The grouping condition of `_progressions`: the current run accepts the
next element when it has fewer than two elements, or when
`curr[1] - curr[0] === element - curr[curr.length - 1]`. -/
def canExtend (curr : List Int) (x : Int) : Bool :=
  match curr with
  | a :: b :: rest => b - a == x - ((b :: rest).getLastD b)
  | _ => true

/-- The `forEach` walk of `_progressions`: grow the current run while
`canExtend` holds, otherwise close it and start a new run; the final
current run is emitted at the end (so the result on an empty input is
`[[]]`, exactly as `results = [[]]` in the source). -/
def progGo (curr : List Int) (l : List Int) : List (List Int) :=
  match l with
  | [] => [curr]
  | x :: xs => if canExtend curr x then progGo (curr ++ [x]) xs else curr :: progGo [x] xs

/-- `_progressions(arr)`: sort a copy of the input ascending, then group it
into constant-gap runs. -/
def progRuns (arr : List Int) : List (List Int) := progGo [] (sortAsc arr)

/-- The maximal-run scanner underlying `progGo`: consume elements while the
current run can still be extended, returning the finished run and the
unconsumed remainder. -/
def maxRunGo (curr : List Int) : List Int → List Int × List Int
  | [] => (curr, [])
  | x :: xs => if canExtend curr x then maxRunGo (curr ++ [x]) xs else (curr, x :: xs)

/-- The number of runs the grouping walk of `_progressions` produces on a
sorted list, counting none for the empty list. -/
def gLen (l : List Int) : Nat := if l.isEmpty then 0 else (progGo [] l).length

/-! ## The spec serializer: `_spec` -/

/-- Render one run of `_spec`: a single element prints bare, a gap-1 run
prints `first-last`, any other run prints `first-lastxgap` (the gap being
`p[1] - p[0]`).  The `[]` case is unreachable from `_spec` (every run of a
nonempty list is nonempty) and renders as the empty token. -/
def renderRun (p : List Int) : List Char :=
  match p with
  | [] => []
  | [x] => intStr x
  | x :: y :: rest =>
    let lastv := (y :: rest).getLastD y
    let g := y - x
    if g == 1 then intStr x ++ '-' :: intStr lastv
    else intStr x ++ '-' :: intStr lastv ++ 'x' :: intStr g

/-- `_spec(arr)`: the empty list prints as `""`; otherwise the runs of
`_progressions(arr)` are rendered and joined with a comma. -/
def specOf (arr : List Int) : String :=
  if arr.isEmpty then ""
  else String.mk (List.intercalate [','] ((progRuns arr).map renderRun))

/-! ## Errors and the constructor dispatch of `_flatten` -/

/-- A thrown JS exception, as observed by a caller of `Sequence(...)`. -/
inductive JsError where
  | rangeError (msg : String)
  | typeError
deriving DecidableEq

/-- The message of the `RangeError` thrown on a malformed spec token. -/
def errMsg : String := "Please provide a valid set of frames. Example: 1, 2-5, 10-20x2"

/-- The `reduce` of the spec-string branch of `_flatten`: expand each token
through `_range`, throwing `RangeError(errMsg)` on the first token that
fails `PROGRESSION_SPEC_REGEX`. -/
def expandToks : List (List Char) → Except JsError (List Int)
  | [] => .ok []
  | t :: ts =>
    match matchTok t with
    | none => .error (.rangeError errMsg)
    | some (f, l, st) =>
      match expandToks ts with
      | .error e => .error e
      | .ok r => .ok (jsRange f l st ++ r)

/-- The whole spec-string branch of `_flatten`: split, expand every token,
deduplicate and sort. -/
def parseSpecStr (s : String) : Except JsError (List Int) :=
  match expandToks (splitSpec s) with
  | .error e => .error e
  | .ok r => .ok (dedupSort r)

/-- The argument shapes the constructor dispatches on: no arguments, one to
three leading numbers, a spec string, an array, or a first argument of any
other type (boolean, object, `undefined`, ...), which matches none of the
branches of `_flatten`. -/
inductive SeqArgs where
  | noArgs
  | num1 (first : Int)
  | num2 (first lastA : Int)
  | num3 (first lastA stepA : Int)
  | strArg (spec : String)
  | arrArg (xs : List Int)
  | otherArg

/-- `_flatten(...args)`.  `Except.ok none` is the `undefined` the JS
function returns when no branch matches. -/
def flatten : SeqArgs → Except JsError (Option (List Int))
  | .noArgs => .ok (some [])
  | .num1 f => .ok (some (jsRange f none none))
  | .num2 f l => .ok (some (jsRange f (some l) none))
  | .num3 f l s => .ok (some (jsRange f (some l) (some s)))
  | .strArg s =>
    match parseSpecStr s with
    | .error e => .error e
    | .ok r => .ok (some r)
  | .arrArg xs => .ok (some (dedupSort xs))
  | .otherArg => .ok none

/-! ## The Sequence value object -/

/-- The state a constructed `Sequence` closes over: the canonical frame
list and the mutable chunk size (initially `1`). -/
structure Sequence where
  frames : List Int
  chunkSize : Int
deriving DecidableEq

/-- `Sequence(arr)` for an array argument (never throws). -/
def mkFromList (l : List Int) : Sequence := ⟨dedupSort l, 1⟩

/-- `Sequence(...args)`: run `_flatten`, then `_frames.push(..._flatten(...args))`.
Spreading the `undefined` returned for an unmatched shape throws a
`TypeError`, so no Sequence is produced in that case either. -/
def mkSeq (a : SeqArgs) : Except JsError Sequence :=
  match flatten a with
  | .error e => .error e
  | .ok none => .error .typeError
  | .ok (some l) => .ok ⟨l, 1⟩

/-- `first()`: the head frame, `undefined` (`none`) when empty. -/
def Sequence.first (s : Sequence) : Option Int := s.frames.head?

/-- `last()`: the final frame, `undefined` (`none`) when empty. -/
def Sequence.last (s : Sequence) : Option Int := s.frames.getLast?

/-- `spec()`. -/
def Sequence.spec (s : Sequence) : String := specOf s.frames

/-- `length()`. -/
def Sequence.length (s : Sequence) : Nat := s.frames.length

/-- `setChunkSize(value)`: clamps to at least 1. -/
def Sequence.setChunkSize (s : Sequence) (v : Int) : Sequence :=
  { s with chunkSize := max 1 v }

/-- `step()`: the common gap when the frames form a progression (`1` for
fewer than two frames), `undefined` (`none`) otherwise. -/
def Sequence.step (s : Sequence) : Option Int :=
  if isProgression s.frames then
    some (if 1 < s.frames.length then s.frames.getD 1 0 - s.frames.getD 0 0 else 1)
  else none

/-- `progressions()`: each run of `_progressions(_frames)` wrapped as a new
Sequence. -/
def Sequence.progressions (s : Sequence) : List Sequence :=
  (progRuns s.frames).map mkFromList

/-- The `forEach` of `chunks()`: push the frame onto the current chunk,
then close the chunk when it reached `chunkSize` exactly, or the frame was
the last overall, or (`enforceProgressions`) appending the next frame would
break the chunk's constant-gap property. -/
def chunksGo (csz : Int) (enf : Bool) (chunk : List Int) (l : List Int) : List (List Int) :=
  match l with
  | [] => []
  | f :: rest =>
    let ch := chunk ++ [f]
    if ((ch.length : Int) == csz) || rest.isEmpty
        || (enf && !(isProgression (ch ++ rest.take 1))) then
      ch :: chunksGo csz enf [] rest
    else chunksGo csz enf ch rest

/-- `chunks(enforceProgressions = true)`: each closed chunk wrapped as a new
Sequence. -/
def Sequence.chunks (s : Sequence) (enf : Bool := true) : List Sequence :=
  (chunksGo s.chunkSize enf [] s.frames).map mkFromList

/-- JS `x > y` on possibly-`undefined` numbers: any comparison against
`undefined` is `false` (NaN semantics). -/
def jsGT : Option Int → Option Int → Bool
  | some a, some b => decide (b < a)
  | _, _ => false

/-- JS `x < y` on possibly-`undefined` numbers. -/
def jsLT : Option Int → Option Int → Bool
  | some a, some b => decide (a < b)
  | _, _ => false

/-- `intersects(other)`: bounding-range fast path, then a membership scan. -/
def Sequence.intersects (s other : Sequence) : Bool :=
  if jsGT s.first other.last || jsLT s.last other.first then false
  else s.frames.any (fun f => other.frames.contains f)

/-- `intersection(other)`. -/
def Sequence.intersection (s other : Sequence) : Sequence :=
  mkFromList (s.frames.filter (fun f => other.frames.contains f))

/-- `union(other)`. -/
def Sequence.union (s other : Sequence) : Sequence :=
  mkFromList (s.frames ++ other.frames)

/-- `difference(other)`. -/
def Sequence.difference (s other : Sequence) : Sequence :=
  mkFromList (s.frames.filter (fun f => !(other.frames.contains f)))

/-- `offset(value)`: shift every frame; chunk size copied onto the result. -/
def Sequence.offset (s : Sequence) (v : Int) : Sequence :=
  Sequence.setChunkSize (mkFromList (s.frames.map (· + v))) s.chunkSize

/-- `scale(value)`: multiply every frame (`Math.trunc` of an integer
product is the identity); chunk size copied onto the result. -/
def Sequence.scale (s : Sequence) (v : Int) : Sequence :=
  Sequence.setChunkSize (mkFromList (s.frames.map (· * v))) s.chunkSize

/-- `fill(step = 1)`: `Sequence(first(), last(), step)` with the chunk size
copied over.  On an empty sequence `first()`/`last()` are `undefined`, the
constructed call matches no branch of `_flatten`, and the spread of its
`undefined` result throws a `TypeError`. -/
def Sequence.fill (s : Sequence) (stepA : Int) : Except JsError Sequence :=
  match s.frames.head?, s.frames.getLast? with
  | some a, some b =>
    .ok (Sequence.setChunkSize ⟨jsRange a (some b) (some stepA), 1⟩ s.chunkSize)
  | _, _ => .error .typeError

/-- `intersectingChunks(other)`: the default chunks that intersect `other`. -/
def Sequence.intersectingChunks (s other : Sequence) : List Sequence :=
  (s.chunks true).filter (fun c => c.intersects other)

/-- `subsample(count)`: clamp `count` into `[1, n]` (for `n = 0` the clamp
yields `0` and no frame is selected), then pick `count` frames at the
centered fractional positions `gap/2 + i*gap`, `gap = n / count`; the JS
floating-point arithmetic is modelled exactly over `ℚ`. -/
def Sequence.subsample (s : Sequence) (count : Int) : Sequence :=
  let n : Nat := s.frames.length
  let c : Int := min (max 1 count) (n : Int)
  let gap : ℚ := (n : ℚ) / (c : ℚ)
  mkFromList ((List.range c.toNat).map (fun (i : Nat) =>
    s.frames.getD (⌊gap / 2 + (i : ℚ) * gap⌋).toNat 0))

/-! ## Spec-level predicates used by the claims -/

/-- A canonical frame list: strictly ascending (hence duplicate-free). -/
def Canonical (l : List Int) : Prop := List.Chain' (· < ·) l

/-- Claim C7's property of a partitioner result `parts` for input `l`:
concatenating the runs reproduces the sorted list, every run is a
(nonempty) arithmetic progression, and the number of runs is minimal among
all such decompositions. -/
def MinimalProgPartition (l : List Int) (parts : List (List Int)) : Prop :=
  parts.flatten = sortAsc l ∧
  (∀ p ∈ parts, p ≠ [] ∧ isProgression p = true) ∧
  (∀ qs : List (List Int), qs.flatten = sortAsc l →
    (∀ q ∈ qs, isProgression q = true) → parts.length ≤ qs.length)

/-- Claim C4's side condition on the chunk frame lists: every chunk other
than the final one that is shorter than `chunkSize` must have been closed
by a progression break — `enforceProgressions` is on and appending the next
frame (the head of the following chunk) breaks the constant-gap property. -/
def ShortChunksOk (csz : Int) (enf : Bool) : List (List Int) → Prop
  | c :: c₂ :: rest =>
    ((c.length : Int) < csz → enf = true ∧ isProgression (c ++ c₂.take 1) = false) ∧
    ShortChunksOk csz enf (c₂ :: rest)
  | _ => True

/-! # Proofs -/

/-! ## Elementary facts about canonical lists -/

/-- A `Chain'` relation restricts to any contiguous sub-list. -/
lemma chain_middle {α : Type} {R : α → α → Prop} {l m : List α}
    (h : m <:+: l) (hc : List.Chain' R l) : List.Chain' R m := by
  obtain ⟨s, t, rfl⟩ := h
  have h₁ : List.Chain' R (s ++ (m ++ t)) := by simpa [List.append_assoc] using hc
  exact (List.chain'_append.mp (List.chain'_append.mp h₁).2.1).1

lemma canonical_sorted {l : List Int} (h : Canonical l) : List.Sorted (· ≤ ·) l :=
  (List.chain'_iff_pairwise.mp h).imp (fun hlt => le_of_lt hlt)

lemma canonical_nodup {l : List Int} (h : Canonical l) : l.Nodup :=
  (List.chain'_iff_pairwise.mp h).imp (fun hlt => ne_of_lt hlt)

lemma sortAsc_eq_self {l : List Int} (h : List.Sorted (· ≤ ·) l) : sortAsc l = l :=
  List.eq_of_perm_of_sorted (List.perm_insertionSort _ l) (List.sorted_insertionSort _ l) h

lemma canonical_dedupSort (l : List Int) : Canonical (dedupSort l) := by
  have hperm := List.perm_insertionSort (· ≤ ·) l.dedup
  have hsort : List.Sorted (· ≤ ·) (dedupSort l) := List.sorted_insertionSort _ _
  have hnodup : (dedupSort l).Nodup := hperm.nodup_iff.mpr (List.nodup_dedup l)
  exact List.chain'_iff_pairwise.mpr (hsort.lt_of_le hnodup)

lemma mem_dedupSort {a : Int} {l : List Int} : a ∈ dedupSort l ↔ a ∈ l :=
  ((List.perm_insertionSort (· ≤ ·) l.dedup).mem_iff).trans List.mem_dedup

lemma dedupSort_eq_self {l : List Int} (h : Canonical l) : dedupSort l = l := by
  unfold dedupSort
  rw [List.dedup_eq_self.mpr (canonical_nodup h)]
  exact sortAsc_eq_self (canonical_sorted h)

lemma mkFromList_frames {l : List Int} (h : Canonical l) : (mkFromList l).frames = l :=
  dedupSort_eq_self h

/-! ## Facts about `rangeGo` and `jsRange` -/

lemma rangeGo_canonical :
    ∀ (fuel : Nat) (i hi sv : Int), 1 ≤ sv → Canonical (rangeGo fuel i hi sv) := by
  intro fuel
  induction fuel with
  | zero => intro i hi sv _; simp [rangeGo, Canonical]
  | succ f ih =>
    intro i hi sv hsv
    by_cases hle : i ≤ hi
    · simp only [rangeGo, if_pos hle]
      refine List.chain'_cons'.mpr ⟨?_, ih (i + sv) hi sv hsv⟩
      intro y hy
      cases f with
      | zero => simp [rangeGo] at hy
      | succ f' =>
        by_cases h₂ : i + sv ≤ hi
        · simp only [rangeGo, if_pos h₂, List.head?_cons, Option.mem_def,
            Option.some.injEq] at hy
          omega
        · simp [rangeGo, if_neg h₂] at hy
    · simp [rangeGo, if_neg hle, Canonical]

lemma rangeGo_mem :
    ∀ (fuel : Nat) (i hi sv x : Int), 1 ≤ sv → hi - i < fuel →
      (x ∈ rangeGo fuel i hi sv ↔ ∃ k : Nat, x = i + sv * k ∧ x ≤ hi) := by
  intro fuel
  induction fuel with
  | zero =>
    intro i hi sv x hsv hf
    constructor
    · intro h; simp [rangeGo] at h
    · rintro ⟨k, rfl, hle⟩
      have hk : (0 : Int) ≤ sv * k := mul_nonneg (by omega) (Int.natCast_nonneg k)
      simp only [Nat.cast_zero] at hf
      omega
  | succ f ih =>
    intro i hi sv x hsv hf
    by_cases hle : i ≤ hi
    · simp only [rangeGo, if_pos hle, List.mem_cons]
      rw [ih (i + sv) hi sv x hsv (by push_cast at hf ⊢; omega)]
      constructor
      · rintro (rfl | ⟨k, rfl, h⟩)
        · exact ⟨0, by simp, hle⟩
        · exact ⟨k + 1, by push_cast; ring, h⟩
      · rintro ⟨k, rfl, h⟩
        cases k with
        | zero => left; simp
        | succ k' => right; exact ⟨k', by push_cast; ring, h⟩
    · simp only [rangeGo, if_neg hle, List.not_mem_nil, false_iff]
      rintro ⟨k, rfl, h⟩
      have hk : (0 : Int) ≤ sv * k := mul_nonneg (by omega) (Int.natCast_nonneg k)
      omega

lemma jsRange_canonical (f : Int) (lA sA : Option Int) : Canonical (jsRange f lA sA) :=
  rangeGo_canonical _ _ _ _ (le_max_left 1 _)

/-! ## Outcomes of `expandToks`, `parseSpecStr` and `mkSeq` -/

lemma expandToks_error_msg :
    ∀ (ts : List (List Char)) (e : JsError),
      expandToks ts = .error e → e = .rangeError errMsg := by
  intro ts
  induction ts with
  | nil => intro e h; simp [expandToks] at h
  | cons t ts ih =>
    intro e h
    cases hm : matchTok t with
    | none => simp [expandToks, hm] at h; simp [h]
    | some v =>
      obtain ⟨f, l, st⟩ := v
      cases he : expandToks ts with
      | error e' =>
        simp only [expandToks, hm, he] at h
        cases h
        exact ih _ he
      | ok r => simp [expandToks, hm, he] at h

lemma expandToks_ok_iff :
    ∀ ts : List (List Char),
      (∃ r, expandToks ts = .ok r) ↔ ∀ t ∈ ts, matchTok t ≠ none := by
  intro ts
  induction ts with
  | nil => simp [expandToks]
  | cons t ts ih =>
    cases hm : matchTok t with
    | none =>
      simp only [expandToks, hm]
      constructor
      · rintro ⟨r, h⟩; cases h
      · intro h; exact absurd hm (h t (List.mem_cons_self t ts))
    | some v =>
      obtain ⟨f, l, st⟩ := v
      constructor
      · rintro ⟨r, h⟩ u hu
        rcases List.mem_cons.mp hu with rfl | hu'
        · simp [hm]
        · cases he : expandToks ts with
          | error e => simp [expandToks, hm, he] at h
          | ok r' => exact (ih.mp ⟨r', he⟩) u hu'
      · intro h
        obtain ⟨r', he⟩ := ih.mpr (fun u hu => h u (List.mem_cons_of_mem t hu))
        exact ⟨jsRange f l st ++ r', by simp [expandToks, hm, he]⟩

lemma parseSpecStr_canonical {s : String} {r : List Int}
    (h : parseSpecStr s = .ok r) : Canonical r := by
  unfold parseSpecStr at h
  cases he : expandToks (splitSpec s) with
  | error e => rw [he] at h; cases h
  | ok r' => rw [he] at h; cases h; exact canonical_dedupSort r'

/-! ## Claim C9: construction from an unmatched argument shape -/

/-- C9, counterexample: the claim says an argument matching none of the
four accepted shapes (a boolean, a plain object, ...) silently yields a
Sequence with an empty frame list.  In fact `_flatten` returns `undefined`
for such an argument and `_frames.push(...undefined)` throws a
`TypeError`: construction raises and yields no Sequence at all. -/
theorem c9_counterexample :
    mkSeq SeqArgs.otherArg = .error JsError.typeError ∧
      ∀ q : Sequence, mkSeq SeqArgs.otherArg ≠ .ok q := by
  refine ⟨rfl, ?_⟩
  intro q h
  cases h

/-- C9, amended: construction from an argument matching none of the four
accepted shapes raises a `TypeError` (the spread of the `undefined`
returned by `_flatten`), rather than silently yielding an empty
Sequence. -/
theorem c9_amended : mkSeq SeqArgs.otherArg = .error JsError.typeError := rfl

/-! ## Claim C10: `intersects` against an empty sequence -/

/-- C10: whenever either sequence is empty, `intersects(other)` returns
`false` (the bounding-range comparisons against `undefined` are `false`,
and the membership scan over or into an empty frame list finds nothing);
being a total function of the model, it raises nothing. -/
theorem c10_intersects_empty (s t : Sequence) (h : s.frames = [] ∨ t.frames = []) :
    s.intersects t = false := by
  rcases h with h | h
  · simp [Sequence.intersects, Sequence.first, Sequence.last, h, jsGT, jsLT]
  · simp only [Sequence.intersects, Sequence.first, Sequence.last, h,
      List.getLast?_nil, List.head?_nil]
    have h₁ : jsGT s.frames.head? none = false := by cases s.frames.head? <;> rfl
    have h₂ : jsLT s.frames.getLast? none = false := by cases s.frames.getLast? <;> rfl
    simp [h₁, h₂]

/-- C10, witness at a concrete pair of sequences. -/
theorem c10_witness :
    Sequence.intersects ⟨[1, 2], 1⟩ ⟨[], 1⟩ = false :=
  c10_intersects_empty ⟨[1, 2], 1⟩ ⟨[], 1⟩ (Or.inr rfl)

/-! ## Claim C8: totality of the non-parsing operations -/

/-- C8, counterexample: the claim says every non-parsing operation —
`fill` included — is total on every constructed Sequence, including the
empty one.  In fact `fill()` on the empty Sequence evaluates
`Sequence(undefined, undefined, step)`, whose `_flatten` result is
`undefined`, and the spread throws a `TypeError`. -/
theorem c8_counterexample :
    mkSeq SeqArgs.noArgs = .ok ⟨[], 1⟩ ∧
      Sequence.fill ⟨[], 1⟩ 1 = .error JsError.typeError :=
  ⟨rfl, rfl⟩

/-- C8, amended: every operation other than spec-string construction is
total and never raises, with the single exception of `fill` on an empty
Sequence, which raises a `TypeError`.  Array-shaped construction — the
route every derived operation (chunks, progressions, set algebra, offset,
scale, subsample) takes back through `Sequence(...)` — never fails, and
`fill` succeeds on every non-empty Sequence. -/
theorem c8_amended :
    (∀ l : List Int, mkSeq (.arrArg l) = .ok (mkFromList l)) ∧
      (∀ (s : Sequence) (v : Int), s.frames ≠ [] → ∃ t, s.fill v = .ok t) ∧
      (∀ (s : Sequence) (v : Int), s.frames = [] → s.fill v = .error JsError.typeError) := by
  refine ⟨fun l => rfl, ?_, ?_⟩
  · intro s v h
    match hf : s.frames with
    | x :: xs =>
      refine ⟨Sequence.setChunkSize ⟨jsRange x (some ((x :: xs).getLast (by simp))) (some v), 1⟩
        s.chunkSize, ?_⟩
      simp [Sequence.fill, hf, List.getLast?_eq_getLast]
    | [] => exact absurd hf h
  · intro s v h
    simp [Sequence.fill, h]

/-- C8, witness: `fill` succeeds on a concrete non-empty Sequence. -/
theorem c8_witness :
    mkSeq (.arrArg [4, 1]) = .ok (mkFromList [4, 1]) ∧
      ∃ t, Sequence.fill ⟨[1, 4], 1⟩ 2 = .ok t :=
  ⟨c8_amended.1 [4, 1], c8_amended.2.1 ⟨[1, 4], 1⟩ 2 (by simp)⟩

/-! ## Claim C6: the malformed-spec error -/

/-- C6, counterexample: construction from a malformed spec does raise the
single `RangeError`, but the fixed message it carries is
`"Please provide a valid set of frames. Example: 1, 2-5, 10-20x2"`, not
the message text quoted by the claim. -/
theorem c6_counterexample :
    mkSeq (.strArg "abc") = .error (.rangeError errMsg) ∧
      errMsg ≠ "provide a valid set of frames, e.g. 1, 2-5, 10-20x2" := by
  exact ⟨rfl, by decide⟩

/-- C6, amended: construction from a spec string raises if and only if
some token of the split fails the grammar; the raised error is always the
`RangeError` with the fixed message `errMsg` (never any other error), it
is the outcome of construction itself (no Sequence is produced), and a
spec string all of whose tokens match the grammar constructs
successfully. -/
theorem c6_amended :
    (∀ s : String,
        mkSeq (.strArg s) = .error (.rangeError errMsg) ↔
          ∃ t ∈ splitSpec s, matchTok t = none) ∧
      (∀ (s : String) (e : JsError), mkSeq (.strArg s) = .error e → e = .rangeError errMsg) := by
  have hrun : ∀ s : String, mkSeq (.strArg s) =
      match expandToks (splitSpec s) with
      | .error e => .error e
      | .ok r => .ok ⟨dedupSort r, 1⟩ := by
    intro s
    cases he : expandToks (splitSpec s) with
    | error e => simp [mkSeq, flatten, parseSpecStr, he]
    | ok r => simp [mkSeq, flatten, parseSpecStr, he]
  constructor
  · intro s
    rw [hrun s]
    cases he : expandToks (splitSpec s) with
    | error e =>
      have hmsg := expandToks_error_msg _ _ he
      subst hmsg
      simp only [true_iff, show (Except.error (.rangeError errMsg) :
        Except JsError Sequence) = .error (.rangeError errMsg) ↔ True from by simp]
      by_contra hno
      push_neg at hno
      obtain ⟨r, hr⟩ := (expandToks_ok_iff (splitSpec s)).mpr
        (fun t ht => hno t ht)
      rw [hr] at he
      cases he
    | ok r =>
      constructor
      · intro h; cases h
      · rintro ⟨t, ht, hm⟩
        have := (expandToks_ok_iff (splitSpec s)).mp ⟨r, he⟩ t ht
        exact absurd hm this
  · intro s e h
    rw [hrun s] at h
    cases he : expandToks (splitSpec s) with
    | error e' =>
      rw [he] at h
      cases h
      exact expandToks_error_msg _ _ he
    | ok r => rw [he] at h; cases h

/-! ## Claim C3: conformance of spec-string parsing to the grammar -/

/-- C3: the grammar examples behave exactly as specified — `"-2-5x2"`
yields `[-2, 0, 2, 4]`, `"-12--5"` yields the eight frames `-12..-5`,
`"1-2x0"` and `"1-2x-1"` are rejected by the grammar (non-positive step)
with the construction error — and every matched token `first-lastxstep`
with a positive step expands, through `_range`, to exactly the integers
`min + step·k` up to `max`, inclusively from `min(first, last)` to
`max(first, last)`. -/
theorem c3_grammar :
    (mkSeq (.strArg "-2-5x2") = .ok ⟨[-2, 0, 2, 4], 1⟩) ∧
      (mkSeq (.strArg "-12--5") = .ok ⟨[-12, -11, -10, -9, -8, -7, -6, -5], 1⟩) ∧
      (mkSeq (.strArg "1-2x0") = .error (.rangeError errMsg)) ∧
      (mkSeq (.strArg "1-2x-1") = .error (.rangeError errMsg)) ∧
      (∀ f l st : Int, 1 ≤ st → ∀ x : Int,
        x ∈ jsRange f (some l) (some st) ↔
          ∃ k : Nat, x = min f l + st * k ∧ x ≤ max f l) := by
  refine ⟨rfl, rfl, rfl, rfl, ?_⟩
  intro f l st hst x
  have hsv : max 1 st = st := by omega
  simp only [jsRange, Option.getD_some, hsv]
  exact rangeGo_mem _ _ _ _ _ (by omega) (by omega)

/-! ## Claim C2: the canonical-form invariant -/

/-- C2: for every Sequence produced by the constructor (any of the four
shapes) and by every derived operation (progressions, chunks,
intersection, union, difference, offset, scale, fill, subsample), the
frame list is strictly ascending with no duplicates. -/
theorem c2_canonical_invariant :
    (∀ (a : SeqArgs) (s : Sequence), mkSeq a = .ok s → Canonical s.frames) ∧
      (∀ (s : Sequence) (e : Bool), ∀ c ∈ s.chunks e, Canonical c.frames) ∧
      (∀ s : Sequence, ∀ p ∈ s.progressions, Canonical p.frames) ∧
      (∀ s t : Sequence, Canonical (s.intersection t).frames) ∧
      (∀ s t : Sequence, Canonical (s.union t).frames) ∧
      (∀ s t : Sequence, Canonical (s.difference t).frames) ∧
      (∀ (s : Sequence) (v : Int), Canonical (s.offset v).frames) ∧
      (∀ (s : Sequence) (v : Int), Canonical (s.scale v).frames) ∧
      (∀ (s : Sequence) (v : Int) (t : Sequence), s.fill v = .ok t → Canonical t.frames) ∧
      (∀ (s : Sequence) (c : Int), Canonical (s.subsample c).frames) := by
  refine ⟨?_, ?_, ?_, ?_, ?_, ?_, ?_, ?_, ?_, ?_⟩
  · intro a s h
    cases a with
    | noArgs => cases h; exact List.chain'_nil
    | num1 f => cases h; exact jsRange_canonical f none none
    | num2 f l => cases h; exact jsRange_canonical f (some l) none
    | num3 f l st => cases h; exact jsRange_canonical f (some l) (some st)
    | strArg sp =>
      cases hp : parseSpecStr sp with
      | error e => simp [mkSeq, flatten, hp] at h
      | ok r =>
        simp only [mkSeq, flatten, hp] at h
        cases h
        exact parseSpecStr_canonical hp
    | arrArg xs => cases h; exact canonical_dedupSort xs
    | otherArg => cases h
  · intro s e c hc
    obtain ⟨raw, _, rfl⟩ := List.mem_map.mp hc
    exact canonical_dedupSort raw
  · intro s p hp
    obtain ⟨raw, _, rfl⟩ := List.mem_map.mp hp
    exact canonical_dedupSort raw
  · intro s t; exact canonical_dedupSort _
  · intro s t; exact canonical_dedupSort _
  · intro s t; exact canonical_dedupSort _
  · intro s v; exact canonical_dedupSort _
  · intro s v; exact canonical_dedupSort _
  · intro s v t h
    match hf : s.frames with
    | x :: xs =>
      simp only [Sequence.fill, hf] at h
      rw [List.getLast?_eq_getLast (x :: xs) (by simp)] at h
      cases h
      exact jsRange_canonical _ _ _
    | [] => simp [Sequence.fill, hf] at h
  · intro s c; exact canonical_dedupSort _

/-! ## Claim C5: the subsample algorithm -/

/-- The centered fractional position `gap/2 + i*gap` of `subsample`, as a
single integer fraction: its floor is the integer division
`n·(2i+1) / (2c)`. -/
lemma subsample_floor (n m i : Nat) (hm : m ≠ 0) :
    ⌊((n : ℚ) / (m : ℚ)) / 2 + (i : ℚ) * ((n : ℚ) / (m : ℚ))⌋ =
      ((n * (2 * i + 1) : Nat) : Int) / ((2 * m : Nat) : Int) := by
  have hmq : (m : ℚ) ≠ 0 := Nat.cast_ne_zero.mpr hm
  have h1 : ((n : ℚ) / (m : ℚ)) / 2 + (i : ℚ) * ((n : ℚ) / (m : ℚ)) =
      (((n * (2 * i + 1) : Nat) : Int) : ℚ) / ((2 * m : Nat) : ℚ) := by
    push_cast
    field_simp
    ring
  rw [h1, Rat.floor_intCast_div_natCast]

/-- `subsample` in closed integer form: the selected indices are
`n·(2i+1) / (2c)` (natural division) for `i < c`, where `c` is the clamped
count. -/
lemma subsample_frames (s : Sequence) (count : Int) :
    (s.subsample count).frames =
      dedupSort ((List.range (min (max 1 count) (s.frames.length : Int)).toNat).map
        (fun i => s.frames.getD
          (s.frames.length * (2 * i + 1) /
            (2 * (min (max 1 count) (s.frames.length : Int)).toNat)) 0)) := by
  show dedupSort _ = dedupSort _
  congr 1
  refine List.map_congr_left ?_
  intro i hi
  have hipos : i < (min (max 1 count) (s.frames.length : Int)).toNat := List.mem_range.mp hi
  set m : Nat := (min (max 1 count) (s.frames.length : Int)).toNat with hmdef
  have hm : m ≠ 0 := by omega
  have hcast : (min (max 1 count) (s.frames.length : Int)) = (m : Int) := by
    have h0 : 0 ≤ min (max 1 count) (s.frames.length : Int) :=
      le_min (by omega) (Int.natCast_nonneg _)
    rw [hmdef, Int.toNat_of_nonneg h0]
  rw [hcast]
  congr 1
  have hqq : (((m : Int) : ℚ)) = (m : ℚ) := by push_cast; ring
  rw [hqq, subsample_floor s.frames.length m i hm]
  rw [← Int.natCast_div, Int.toNat_natCast]

/-- `(range l.length).map (fun i => l.getD i 0) = l`. -/
lemma range_map_getD : ∀ l : List Int, (List.range l.length).map (fun i => l.getD i 0) = l := by
  intro l
  induction l with
  | nil => simp
  | cons x xs ih =>
    have hfun : ∀ i ∈ List.range xs.length,
        (x :: xs).getD (Nat.succ i) 0 = xs.getD i 0 := by
      intro i _
      simp [List.getD_cons_succ]
    rw [List.length_cons, List.range_succ_eq_map, List.map_cons, List.map_map]
    show x :: List.map ((fun i => (x :: xs).getD i 0) ∘ Nat.succ) (List.range xs.length) = x :: xs
    have hcomp : ((fun i => (x :: xs).getD i 0) ∘ Nat.succ) =
        fun i => (x :: xs).getD i.succ 0 := rfl
    rw [hcomp, List.map_congr_left hfun, ih]

/-- C5: `subsample` follows the centered-bucket algorithm — the count is
clamped through `min(max(1, count), n)`, the positions are
`gap/2 + i·gap` with `gap = n/count` in exact (real) division, and the
frame at `⌊pos⌋` is selected each time.  Consequently `subsample(count)`
with `count ≥ n` returns all `n` frames in order, `subsample(1)` on a
non-empty sequence returns exactly the centered element
`frames[⌊n/2⌋]`, and `Sequence("1-10").subsample(3)` has frames
`[2, 6, 9]`. -/
theorem c5_subsample :
    (∀ (s : Sequence) (count : Int), Canonical s.frames →
        (s.frames.length : Int) ≤ count → (s.subsample count).frames = s.frames) ∧
      (∀ s : Sequence, Canonical s.frames → s.frames ≠ [] →
        (s.subsample 1).frames = [s.frames.getD (s.frames.length / 2) 0]) ∧
      ((Sequence.subsample ⟨[1, 2, 3, 4, 5, 6, 7, 8, 9, 10], 1⟩ 3).frames = [2, 6, 9]) := by
  refine ⟨?_, ?_, ?_⟩
  · intro s count hcan hle
    rw [subsample_frames]
    rcases Nat.eq_zero_or_pos s.frames.length with h0 | hpos
    · have hnil : s.frames = [] := List.length_eq_zero.mp h0
      rw [hnil]
      simp only [List.length_nil, Nat.cast_zero]
      have hc : min (max 1 count) (0 : Int) = 0 := min_eq_right (by omega)
      rw [hc]
      rfl
    · have h1c : (1 : Int) ≤ count := le_trans (by exact_mod_cast hpos) hle
      have hc : min (max 1 count) (s.frames.length : Int) = (s.frames.length : Int) := by
        rw [max_eq_right h1c]
        exact min_eq_right hle
      rw [hc, Int.toNat_natCast]
      have hmap : ∀ i ∈ List.range s.frames.length,
          s.frames.getD (s.frames.length * (2 * i + 1) / (2 * s.frames.length)) 0 =
            s.frames.getD i 0 := by
        intro i hi
        have hilt : i < s.frames.length := List.mem_range.mp hi
        congr 1
        have hexp : s.frames.length * (2 * i + 1) = 2 * s.frames.length * i + s.frames.length := by
          ring
        rw [hexp, Nat.mul_add_div (by omega), Nat.div_eq_of_lt (by omega)]
        omega
      rw [List.map_congr_left hmap, range_map_getD]
      exact dedupSort_eq_self hcan
  · intro s hcan hne
    rw [subsample_frames]
    have hlen : 1 ≤ s.frames.length := List.length_pos.mpr hne
    have hc : min (max 1 (1 : Int)) (s.frames.length : Int) = 1 := by
      rw [max_self]
      exact min_eq_left (by exact_mod_cast hlen)
    rw [hc]
    show dedupSort [s.frames.getD (s.frames.length * (2 * 0 + 1) / (2 * 1)) 0] = _
    have hidx : s.frames.length * (2 * 0 + 1) / (2 * 1) = s.frames.length / 2 := by
      simp
    rw [hidx]
    exact dedupSort_eq_self (List.chain'_singleton _)
  · rw [subsample_frames]
    decide

/-! ## Claim C4: chunk coverage and the size bound -/

lemma chunksGo_flatten (csz : Int) (enf : Bool) :
    ∀ (l chunk : List Int), l ≠ [] → (chunksGo csz enf chunk l).flatten = chunk ++ l := by
  intro l
  induction l with
  | nil => intro chunk h; exact absurd rfl h
  | cons f rest ih =>
    intro chunk _
    simp only [chunksGo]
    by_cases hc : ((((chunk ++ [f]).length : Int) == csz) || rest.isEmpty
        || (enf && !(isProgression ((chunk ++ [f]) ++ rest.take 1)))) = true
    · rw [if_pos hc]
      cases hrest : rest with
      | nil => simp [chunksGo]
      | cons r rest' =>
        rw [← hrest]
        have hne : rest ≠ [] := by rw [hrest]; exact List.cons_ne_nil r rest'
        simp only [List.flatten_cons, ih [] hne, List.nil_append, List.append_assoc,
          List.singleton_append]
    · rw [if_neg hc]
      have hne : rest ≠ [] := by
        intro hrest
        apply hc
        simp [hrest]
      rw [ih (chunk ++ [f]) hne]
      simp [List.append_assoc]

lemma chunksGo_ne_nil (csz : Int) (enf : Bool) :
    ∀ (l chunk : List Int), ∀ c ∈ chunksGo csz enf chunk l, c ≠ [] := by
  intro l
  induction l with
  | nil => intro chunk c hc; simp [chunksGo] at hc
  | cons f rest ih =>
    intro chunk c hc
    simp only [chunksGo] at hc
    by_cases hcond : ((((chunk ++ [f]).length : Int) == csz) || rest.isEmpty
        || (enf && !(isProgression ((chunk ++ [f]) ++ rest.take 1)))) = true
    · rw [if_pos hcond] at hc
      rcases List.mem_cons.mp hc with rfl | hc'
      · simp
      · exact ih [] c hc'
    · rw [if_neg hcond] at hc
      exact ih (chunk ++ [f]) c hc

lemma chunksGo_le (csz : Int) (enf : Bool) (hcsz : 1 ≤ csz) :
    ∀ (l chunk : List Int), (chunk.length : Int) < csz →
      ∀ c ∈ chunksGo csz enf chunk l, (c.length : Int) ≤ csz := by
  intro l
  induction l with
  | nil => intro chunk _ c hc; simp [chunksGo] at hc
  | cons f rest ih =>
    intro chunk hlt c hc
    simp only [chunksGo] at hc
    by_cases hcond : ((((chunk ++ [f]).length : Int) == csz) || rest.isEmpty
        || (enf && !(isProgression ((chunk ++ [f]) ++ rest.take 1)))) = true
    · rw [if_pos hcond] at hc
      rcases List.mem_cons.mp hc with rfl | hc'
      · simp only [List.length_append, List.length_singleton]
        push_cast
        omega
      · exact ih [] (by simpa using hcsz) c hc'
    · rw [if_neg hcond] at hc
      simp only [Bool.or_eq_true, not_or, beq_iff_eq] at hcond
      obtain ⟨⟨h₁, _⟩, _⟩ := hcond
      have hlt' : ((chunk ++ [f]).length : Int) < csz := by
        simp only [List.length_append, List.length_singleton] at h₁ ⊢
        push_cast at h₁ ⊢
        omega
      exact ih (chunk ++ [f]) hlt' c hc

lemma chunksGo_chain (csz : Int) (enf : Bool) :
    ∀ (l chunk : List Int), List.Chain' (· < ·) (chunk ++ l) →
      ∀ c ∈ chunksGo csz enf chunk l, Canonical c := by
  intro l
  induction l with
  | nil => intro chunk _ c hc; simp [chunksGo] at hc
  | cons f rest ih =>
    intro chunk hch c hc
    have hch' : List.Chain' (· < ·) ((chunk ++ [f]) ++ rest) := by
      simpa [List.append_assoc, List.singleton_append] using hch
    simp only [chunksGo] at hc
    by_cases hcond : ((((chunk ++ [f]).length : Int) == csz) || rest.isEmpty
        || (enf && !(isProgression ((chunk ++ [f]) ++ rest.take 1)))) = true
    · rw [if_pos hcond] at hc
      rcases List.mem_cons.mp hc with rfl | hc'
      · exact chain_middle ⟨[], rest, by simp⟩ hch'
      · exact ih [] (chain_middle ⟨chunk ++ [f], [], by simp⟩ hch') c hc'
    · rw [if_neg hcond] at hc
      exact ih (chunk ++ [f]) hch' c hc

lemma chunksGo_short_ok (csz : Int) (enf : Bool) :
    ∀ (l chunk : List Int), ShortChunksOk csz enf (chunksGo csz enf chunk l) := by
  intro l
  induction l with
  | nil => intro chunk; simp [chunksGo, ShortChunksOk]
  | cons f rest ih =>
    intro chunk
    simp only [chunksGo]
    by_cases hcond : ((((chunk ++ [f]).length : Int) == csz) || rest.isEmpty
        || (enf && !(isProgression ((chunk ++ [f]) ++ rest.take 1)))) = true
    · rw [if_pos hcond]
      cases hrest : rest with
      | nil => simp [chunksGo, ShortChunksOk]
      | cons r rest' =>
        rw [← hrest]
        have hne : rest ≠ [] := by rw [hrest]; exact List.cons_ne_nil r rest'
        cases hsub : chunksGo csz enf [] rest with
        | nil =>
          exfalso
          have := chunksGo_flatten csz enf rest [] hne
          rw [hsub] at this
          simp at this
          exact hne this
        | cons c₂ more =>
          have hc₂ne : c₂ ≠ [] :=
            chunksGo_ne_nil csz enf rest [] c₂ (by rw [hsub]; exact List.mem_cons_self c₂ more)
          have hc₂head : c₂.take 1 = rest.take 1 := by
            have hflat := chunksGo_flatten csz enf rest [] hne
            rw [hsub] at hflat
            cases hc₂ : c₂ with
            | nil => exact absurd hc₂ hc₂ne
            | cons z zs =>
              rw [hc₂] at hflat
              simp only [List.nil_append, List.flatten_cons, List.cons_append] at hflat
              rw [hrest] at hflat ⊢
              cases hflat
              simp
          refine ⟨?_, hsub ▸ ih []⟩
          intro hshort
          have h₁ : (((chunk ++ [f]).length : Int) == csz) = false := by
            simp only [beq_eq_false_iff_ne, ne_eq]
            omega
          have h₂ : rest.isEmpty = false := by rw [hrest]; rfl
          rw [h₁, h₂] at hcond
          simp only [Bool.false_or, Bool.and_eq_true, Bool.not_eq_true'] at hcond
          rw [hc₂head]
          exact hcond
    · rw [if_neg hcond]
      exact ih (chunk ++ [f])

/-- C4: for every Sequence with canonical frames and an integer
`chunkSize ≥ 1`, concatenating the frame lists of `chunks()` in order
reproduces `frames` exactly, every chunk has at most `chunkSize` frames,
and any non-final chunk shorter than `chunkSize` was closed by a
progression break (`enforceProgressions` on, and appending the next frame
breaks the constant-gap property). -/
theorem c4_chunks (s : Sequence) (enf : Bool)
    (hcan : Canonical s.frames) (hcsz : 1 ≤ s.chunkSize) :
    (((s.chunks enf).map Sequence.frames).flatten = s.frames) ∧
      (∀ c ∈ s.chunks enf, (c.frames.length : Int) ≤ s.chunkSize) ∧
      ShortChunksOk s.chunkSize enf ((s.chunks enf).map Sequence.frames) := by
  have hraw : ∀ c ∈ chunksGo s.chunkSize enf [] s.frames, Canonical c :=
    chunksGo_chain s.chunkSize enf s.frames [] (by simpa using hcan)
  have hmap : (s.chunks enf).map Sequence.frames = chunksGo s.chunkSize enf [] s.frames := by
    unfold Sequence.chunks
    rw [List.map_map]
    have hpt : ∀ c ∈ chunksGo s.chunkSize enf [] s.frames,
        (Sequence.frames ∘ mkFromList) c = c := by
      intro c hc
      exact mkFromList_frames (hraw c hc)
    rw [List.map_congr_left hpt]
    simp
  refine ⟨?_, ?_, ?_⟩
  · rw [hmap]
    cases hf : s.frames with
    | nil => simp [chunksGo]
    | cons x xs =>
      rw [← hf]
      have := chunksGo_flatten s.chunkSize enf s.frames []
        (by rw [hf]; exact List.cons_ne_nil x xs)
      simpa using this
  · intro c hc
    obtain ⟨rc, hrc, rfl⟩ := List.mem_map.mp hc
    rw [mkFromList_frames (hraw rc hrc)]
    exact chunksGo_le s.chunkSize enf hcsz s.frames [] (by simpa using hcsz) rc hrc
  · rw [hmap]
    exact chunksGo_short_ok s.chunkSize enf s.frames []

/-- C4, witness at a concrete Sequence (chunk size 2, a progression break
between 3 and 10). -/
theorem c4_witness :
    (((Sequence.mk [1, 2, 3, 10] 2).chunks true).map Sequence.frames).flatten
      = [1, 2, 3, 10] :=
  (c4_chunks ⟨[1, 2, 3, 10], 2⟩ true (by
    unfold Canonical
    simp only [List.chain'_cons, List.chain'_singleton, and_true]
    omega) (by decide)).1

/-! ## The progression analyzer: characterisations of runs -/

lemma constGap_iff_chain (g : Int) :
    ∀ l : List Int, constGap g l = true ↔ List.Chain' (fun a b => b - a = g) l := by
  intro l
  induction l with
  | nil => simp [constGap]
  | cons a l ih =>
    cases l with
    | nil => simp [constGap]
    | cons b rest =>
      rw [show constGap g (a :: b :: rest) = ((b - a == g) && constGap g (b :: rest)) from rfl,
        Bool.and_eq_true, beq_iff_eq, List.chain'_cons, ih]

lemma isProgression_iff :
    ∀ l : List Int, isProgression l = true ↔ ∃ g : Int, List.Chain' (fun a b => b - a = g) l := by
  intro l
  match l with
  | [] =>
    constructor
    · intro _; exact ⟨0, List.chain'_nil⟩
    · intro _; rfl
  | [a] =>
    constructor
    · intro _; exact ⟨0, List.chain'_singleton a⟩
    · intro _; rfl
  | [a, b] =>
    constructor
    · intro _; exact ⟨b - a, List.chain'_pair.mpr rfl⟩
    · intro _; rfl
  | a :: b :: c :: rest =>
    rw [show isProgression (a :: b :: c :: rest)
        = constGap (b - a) (a :: b :: c :: rest) from rfl]
    rw [constGap_iff_chain]
    constructor
    · intro h; exact ⟨b - a, h⟩
    · rintro ⟨g, hg⟩
      have hba : b - a = g := (List.chain'_cons.mp hg).1
      rw [hba]
      exact hg

/-- A contiguous sub-list of a progression is a progression. -/
lemma isProgression_middle {l m : List Int} (h : m <:+: l)
    (hp : isProgression l = true) : isProgression m = true := by
  rw [isProgression_iff] at hp ⊢
  obtain ⟨g, hg⟩ := hp
  exact ⟨g, chain_middle h hg⟩

lemma isProgression_cons_cons (a b : Int) (t : List Int) (ht : t ≠ []) :
    isProgression (a :: b :: t) = constGap (b - a) (a :: b :: t) := by
  cases t with
  | nil => exact absurd rfl ht
  | cons c r => rfl

/-- Appending one element to a nonempty list: `constGap` of the result is
`constGap` of the list together with the gap condition at the junction. -/
lemma constGap_snoc (g x : Int) :
    ∀ (l : List Int) (a : Int),
      constGap g ((a :: l) ++ [x]) = (constGap g (a :: l) && (x - (l.getLastD a) == g)) := by
  intro l
  induction l with
  | nil => intro a; simp [constGap]
  | cons b l' ih =>
    intro a
    show constGap g (a :: b :: (l' ++ [x])) = _
    rw [show constGap g (a :: b :: (l' ++ [x]))
        = ((b - a == g) && constGap g (b :: (l' ++ [x]))) from rfl]
    rw [show (b :: (l' ++ [x])) = (b :: l') ++ [x] from rfl, ih b]
    rw [show constGap g (a :: b :: l') = ((b - a == g) && constGap g (b :: l')) from rfl]
    rw [List.getLastD_cons a b l', Bool.and_assoc]

/-- On a run that is itself a progression, the grouping condition of
`_progressions` agrees exactly with "appending the element keeps it a
progression". -/
lemma canExtend_iff {curr : List Int} (x : Int) (hp : isProgression curr = true) :
    canExtend curr x = true ↔ isProgression (curr ++ [x]) = true := by
  match curr with
  | [] => constructor <;> (intro _; rfl)
  | [a] => constructor <;> (intro _; rfl)
  | a :: b :: rest =>
    rw [show canExtend (a :: b :: rest) x
        = (b - a == x - ((b :: rest).getLastD b)) from rfl]
    have hEq : isProgression ((a :: b :: rest) ++ [x])
        = constGap (b - a) ((a :: b :: rest) ++ [x]) := by
      rw [show (a :: b :: rest) ++ [x] = a :: b :: (rest ++ [x]) from rfl]
      exact isProgression_cons_cons a b (rest ++ [x]) (by simp)
    rw [hEq, constGap_snoc (b - a) x (b :: rest) a]
    have hCG : constGap (b - a) (a :: b :: rest) = true := by
      cases hr : rest with
      | nil => simp [constGap]
      | cons c r' =>
        subst hr
        exact hp
    rw [hCG, Bool.true_and]
    rw [List.getLastD_cons a b rest, List.getLastD_cons b b rest]
    simp only [beq_iff_eq]
    exact eq_comm

/-! ## The grouping walk `progGo` and its maximal-run decomposition -/

lemma progGo_flatten : ∀ (l curr : List Int), (progGo curr l).flatten = curr ++ l := by
  intro l
  induction l with
  | nil => intro curr; simp [progGo]
  | cons x xs ih =>
    intro curr
    simp only [progGo]
    by_cases hce : canExtend curr x = true
    · rw [if_pos hce, ih (curr ++ [x])]
      simp
    · rw [if_neg hce]
      simp only [List.flatten_cons, ih [x]]
      simp

lemma progGo_prog : ∀ (l curr : List Int), isProgression curr = true →
    ∀ p ∈ progGo curr l, isProgression p = true := by
  intro l
  induction l with
  | nil =>
    intro curr h p hp
    simp only [progGo, List.mem_singleton] at hp
    subst hp
    exact h
  | cons x xs ih =>
    intro curr h p hp
    simp only [progGo] at hp
    by_cases hce : canExtend curr x = true
    · rw [if_pos hce] at hp
      exact ih (curr ++ [x]) ((canExtend_iff x h).mp hce) p hp
    · rw [if_neg hce] at hp
      rcases List.mem_cons.mp hp with rfl | hp'
      · exact h
      · exact ih [x] rfl p hp'

lemma progGo_ne_nil : ∀ (l curr : List Int), curr ≠ [] →
    ∀ p ∈ progGo curr l, p ≠ [] := by
  intro l
  induction l with
  | nil =>
    intro curr h p hp
    simp only [progGo, List.mem_singleton] at hp
    subst hp
    exact h
  | cons x xs ih =>
    intro curr h p hp
    simp only [progGo] at hp
    by_cases hce : canExtend curr x = true
    · rw [if_pos hce] at hp
      exact ih (curr ++ [x]) (by simp) p hp
    · rw [if_neg hce] at hp
      rcases List.mem_cons.mp hp with rfl | hp'
      · exact h
      · exact ih [x] (by simp) p hp'

lemma progGo_nil_cons (x : Int) (xs : List Int) : progGo [] (x :: xs) = progGo [x] xs := by
  simp [progGo, canExtend]

lemma maxRunGo_append : ∀ (l curr : List Int),
    (maxRunGo curr l).1 ++ (maxRunGo curr l).2 = curr ++ l := by
  intro l
  induction l with
  | nil => intro curr; simp [maxRunGo]
  | cons x xs ih =>
    intro curr
    simp only [maxRunGo]
    by_cases hce : canExtend curr x = true
    · rw [if_pos hce, ih (curr ++ [x])]
      simp
    · rw [if_neg hce]

lemma maxRunGo_grow : ∀ (l curr : List Int), ∃ t, (maxRunGo curr l).1 = curr ++ t := by
  intro l
  induction l with
  | nil => intro curr; exact ⟨[], by simp [maxRunGo]⟩
  | cons x xs ih =>
    intro curr
    simp only [maxRunGo]
    by_cases hce : canExtend curr x = true
    · rw [if_pos hce]
      obtain ⟨t, ht⟩ := ih (curr ++ [x])
      exact ⟨x :: t, by simp [ht]⟩
    · rw [if_neg hce]
      exact ⟨[], by simp⟩

lemma maxRunGo_prog : ∀ (l curr : List Int), isProgression curr = true →
    isProgression (maxRunGo curr l).1 = true := by
  intro l
  induction l with
  | nil => intro curr h; simpa [maxRunGo] using h
  | cons x xs ih =>
    intro curr h
    simp only [maxRunGo]
    by_cases hce : canExtend curr x = true
    · rw [if_pos hce]
      exact ih (curr ++ [x]) ((canExtend_iff x h).mp hce)
    · rw [if_neg hce]
      exact h

lemma maxRunGo_nil_cons (x : Int) (xs : List Int) :
    maxRunGo [] (x :: xs) = maxRunGo [x] xs := by
  simp [maxRunGo, canExtend]

lemma maxRunGo_fst_ne : ∀ l : List Int, l ≠ [] → (maxRunGo [] l).1 ≠ [] := by
  intro l h
  cases l with
  | nil => exact absurd rfl h
  | cons x xs =>
    rw [maxRunGo_nil_cons]
    obtain ⟨t, ht⟩ := maxRunGo_grow xs [x]
    rw [ht]
    simp

lemma progGo_decomp : ∀ (l curr : List Int),
    progGo curr l = (maxRunGo curr l).1 ::
      (if (maxRunGo curr l).2.isEmpty then [] else progGo [] (maxRunGo curr l).2) := by
  intro l
  induction l with
  | nil => intro curr; simp [progGo, maxRunGo]
  | cons x xs ih =>
    intro curr
    simp only [progGo, maxRunGo]
    by_cases hce : canExtend curr x = true
    · rw [if_pos hce, if_pos hce]
      exact ih (curr ++ [x])
    · rw [if_neg hce, if_neg hce]
      simp only [List.isEmpty_cons, if_neg (by simp : ¬((false : Bool) = true))]
      rw [progGo_nil_cons]

/-! ## The run count `gLen` and its minimality -/

lemma gLen_rec (l : List Int) (h : l ≠ []) : gLen l = 1 + gLen (maxRunGo [] l).2 := by
  have hiE : l.isEmpty = false := by
    cases l with
    | nil => exact absurd rfl h
    | cons x xs => rfl
  rw [show gLen l = (progGo [] l).length from by simp [gLen, hiE]]
  rw [progGo_decomp l []]
  cases hr : (maxRunGo [] l).2 with
  | nil => simp [gLen]
  | cons y ys =>
    simp only [gLen, List.isEmpty_cons, List.length_cons, if_false]
    simp [Nat.add_comm]

/-- Any prefix of `curr ++ l` that extends `curr` to a progression is no
longer than the run the maximal-run scanner produces. -/
lemma maxRun_max : ∀ (q curr l : List Int),
    isProgression (curr ++ q) = true → curr ++ q <+: curr ++ l →
    (curr ++ q).length ≤ (maxRunGo curr l).1.length := by
  intro q
  induction q with
  | nil =>
    intro curr l _ _
    obtain ⟨t, ht⟩ := maxRunGo_grow l curr
    rw [ht]
    simp
  | cons y q' ih =>
    intro curr l hp hpre
    have hql : y :: q' <+: l := (List.prefix_append_right_inj curr).mp hpre
    obtain ⟨l', hl, hq'⟩ : ∃ l', l = y :: l' ∧ q' <+: l' := by
      obtain ⟨t, ht⟩ := hql
      exact ⟨q' ++ t, by simp [← ht], ⟨t, rfl⟩⟩
    subst hl
    have hcurr_prog : isProgression curr = true :=
      isProgression_middle ⟨[], y :: q', by simp⟩ hp
    have happ : (curr ++ [y]) ++ q' = curr ++ y :: q' := by simp
    have hce : canExtend curr y = true := by
      rw [canExtend_iff y hcurr_prog]
      exact isProgression_middle ⟨[], q', by simp [happ]⟩ hp
    rw [show maxRunGo curr (y :: l') = maxRunGo (curr ++ [y]) l' from by
      simp [maxRunGo, hce]]
    have hstep := ih (curr ++ [y]) l' (by rw [happ]; exact hp)
      ((List.prefix_append_right_inj (curr ++ [y])).mpr hq')
    calc (curr ++ y :: q').length = ((curr ++ [y]) ++ q').length := by rw [happ]
    _ ≤ (maxRunGo (curr ++ [y]) l').1.length := hstep

/-- From `a ++ b = m`, the second part is the drop of the first's length. -/
lemma eq_drop_of_append_eq {a b m : List Int} (h : a ++ b = m) : b = m.drop a.length := by
  subst h
  rw [List.drop_left]

/-- Dropping a prefix never increases the number of runs the grouping walk
produces. -/
lemma gLen_drop : ∀ (n : Nat) (l : List Int), l.length ≤ n →
    ∀ k : Nat, gLen (l.drop k) ≤ gLen l := by
  intro n
  induction n with
  | zero =>
    intro l hl k
    have hnil : l = [] := List.length_eq_zero.mp (Nat.le_zero.mp hl)
    subst hnil
    simp
  | succ n ih =>
    intro l hl k
    rcases eq_or_ne l [] with rfl | hne
    · simp
    rcases Nat.eq_zero_or_pos k with rfl | hk
    · simp
    have hcr : (maxRunGo [] l).1 ++ (maxRunGo [] l).2 = l := by
      simpa using maxRunGo_append l []
    set c := (maxRunGo [] l).1 with hcdef
    set r := (maxRunGo [] l).2 with hrdef
    have hcne : c ≠ [] := maxRunGo_fst_ne l hne
    have hglen : gLen l = 1 + gLen r := gLen_rec l hne
    have hlen_sum : c.length + r.length = l.length := by
      rw [← hcr]
      simp
    have hcpos : 1 ≤ c.length := List.length_pos.mpr hcne
    have hrlen : r.length ≤ n := by omega
    by_cases hkc : k ≤ c.length
    · have hdrop : l.drop k = c.drop k ++ r := by
        rw [← hcr]
        exact List.drop_append_of_le_length hkc
      rcases eq_or_ne (l.drop k) [] with hnil | hdne
      · rw [hnil]
        simp [gLen]
      · have hglen' : gLen (l.drop k) = 1 + gLen (maxRunGo [] (l.drop k)).2 :=
          gLen_rec _ hdne
        have hc'len : c.length - k ≤ (maxRunGo [] (l.drop k)).1.length := by
          rcases eq_or_ne (c.drop k) [] with hck | hck
          · have : c.length - k = 0 := by
              have := congrArg List.length hck
              simp at this
              omega
            omega
          · have hqprog : isProgression ([] ++ c.drop k) = true := by
              simp only [List.nil_append]
              exact isProgression_middle (l := c) (m := c.drop k)
                ⟨c.take k, [], by simp⟩ (maxRunGo_prog l [] rfl)
            have hqpre : ([] : List Int) ++ c.drop k <+: [] ++ l.drop k := by
              simp only [List.nil_append]
              rw [hdrop]
              exact ⟨r, rfl⟩
            have := maxRun_max (c.drop k) [] (l.drop k) hqprog hqpre
            simp only [List.nil_append, List.length_drop] at this
            omega
        have hr' : (maxRunGo [] (l.drop k)).2
            = r.drop (k + (maxRunGo [] (l.drop k)).1.length - c.length) := by
          have h1 : (maxRunGo [] (l.drop k)).1 ++ (maxRunGo [] (l.drop k)).2 = l.drop k := by
            simpa using maxRunGo_append (l.drop k) []
          have h2 : (maxRunGo [] (l.drop k)).2
              = (l.drop k).drop (maxRunGo [] (l.drop k)).1.length :=
            eq_drop_of_append_eq h1
          rw [h2, List.drop_drop]
          set m2 := (maxRunGo [] (l.drop k)).1.length with hm2
          have hstep : l.drop (c.length + (k + m2 - c.length)) = r.drop (k + m2 - c.length) := by
            rw [← hcr]
            exact List.drop_append _
          rw [← hstep]
          congr 1
          omega
        have hmono : gLen (maxRunGo [] (l.drop k)).2 ≤ gLen r := by
          rw [hr']
          exact ih r hrlen _
        omega
    · have hdrop : l.drop k = r.drop (k - c.length) := by
        have hstep : l.drop (c.length + (k - c.length)) = r.drop (k - c.length) := by
          rw [← hcr]
          exact List.drop_append _
        rw [← hstep]
        congr 1
        omega
      rw [hdrop]
      have := ih r hrlen (k - c.length)
      omega

/-- Greedy minimality: any decomposition of `l` into progressions has at
least as many parts as the grouping walk produces. -/
lemma gLen_le_cover : ∀ (qs : List (List Int)) (l : List Int), qs.flatten = l →
    (∀ q ∈ qs, isProgression q = true) → gLen l ≤ qs.length := by
  intro qs
  induction qs with
  | nil =>
    intro l h _
    rw [← h]
    simp [gLen]
  | cons q qs' ih =>
    intro l hfl hpr
    rcases eq_or_ne q [] with rfl | hqne
    · simp only [List.flatten_cons, List.nil_append] at hfl
      have := ih l hfl (fun u hu => hpr u (List.mem_cons_of_mem _ hu))
      simp only [List.length_cons]
      omega
    · have hlne : l ≠ [] := by
        rw [← hfl]
        simp only [List.flatten_cons]
        intro hcontra
        exact hqne (List.append_eq_nil.mp hcontra).1
      have hglen : gLen l = 1 + gLen (maxRunGo [] l).2 := gLen_rec l hlne
      have hqpre : q <+: l := by
        rw [← hfl]
        exact ⟨qs'.flatten, by simp⟩
      have hqprog := hpr q (List.mem_cons_self _ _)
      have hqc : q.length ≤ (maxRunGo [] l).1.length := by
        have := maxRun_max q [] l (by simpa using hqprog) (by simpa using hqpre)
        simpa using this
      have hrest : qs'.flatten = l.drop q.length := by
        rw [← hfl]
        simp only [List.flatten_cons]
        rw [List.drop_left]
      have hrdrop : (maxRunGo [] l).2
          = (qs'.flatten).drop ((maxRunGo [] l).1.length - q.length) := by
        have h1 : (maxRunGo [] l).1 ++ (maxRunGo [] l).2 = l := by
          simpa using maxRunGo_append l []
        have h2 : (maxRunGo [] l).2 = l.drop (maxRunGo [] l).1.length :=
          eq_drop_of_append_eq h1
        rw [h2, hrest, List.drop_drop]
        congr 1
        omega
      have hmono : gLen (maxRunGo [] l).2 ≤ gLen qs'.flatten := by
        rw [hrdrop]
        exact gLen_drop qs'.flatten.length _ le_rfl _
      have hih := ih qs'.flatten rfl (fun u hu => hpr u (List.mem_cons_of_mem _ hu))
      simp only [List.length_cons]
      omega

/-! ## Claim C7: the minimal progression partition -/

/-- C7, counterexample: on the empty list the partitioner returns `[[]]` —
one empty run (`results = [[]]` in the source) — which is not a partition
into nonempty progression runs, and has one part where the minimal
decomposition of the empty list has none.  The claim as stated ("for every
integer list including the empty list") therefore fails at `[]`. -/
theorem c7_counterexample :
    progRuns ([] : List Int) = [[]] ∧ ¬ MinimalProgPartition [] (progRuns []) := by
  refine ⟨rfl, ?_⟩
  rintro ⟨_, hparts, _⟩
  exact (hparts [] (List.mem_singleton.mpr rfl)).1 rfl

/-- C7, amended: for every *nonempty* integer list, the partitioner
returns a minimal ordered partition of the sorted list into constant-gap
runs — concatenating the runs reproduces the sorted list, every run is a
nonempty arithmetic progression, and no decomposition of the sorted list
into progressions has fewer runs. -/
theorem c7_minimal_partition (l : List Int) (h : l ≠ []) :
    MinimalProgPartition l (progRuns l) := by
  have hsne : sortAsc l ≠ [] := by
    intro hn
    have hperm := (List.perm_insertionSort (· ≤ ·) l).symm
    rw [show l.insertionSort (· ≤ ·) = sortAsc l from rfl, hn] at hperm
    exact h hperm.eq_nil
  refine ⟨by simpa using progGo_flatten (sortAsc l) [], ?_, ?_⟩
  · intro p hp
    unfold progRuns at hp
    cases hs : sortAsc l with
    | nil => exact absurd hs hsne
    | cons x xs =>
      rw [hs, progGo_nil_cons] at hp
      exact ⟨progGo_ne_nil xs [x] (by simp) p hp, progGo_prog xs [x] rfl p hp⟩
  · intro qs hflat hprog
    have h1 : (progRuns l).length = gLen (sortAsc l) := by
      have hiE : (sortAsc l).isEmpty = false := by
        cases hs : sortAsc l with
        | nil => exact absurd hs hsne
        | cons x xs => rfl
      simp [gLen, hiE, progRuns]
    rw [h1]
    exact gLen_le_cover qs (sortAsc l) hflat hprog

/-- C7, witness at a concrete list. -/
theorem c7_witness : MinimalProgPartition [5, 1, 2, 3] (progRuns [5, 1, 2, 3]) :=
  c7_minimal_partition [5, 1, 2, 3] (by decide)

/-! ## Claim C1: digit printing and scanning round-trip -/

lemma digChar_toNat {d : Nat} (h : d < 10) : (digChar d).toNat = 48 + d := by
  interval_cases d <;> decide

lemma digChar_isDig {d : Nat} (h : d < 10) : isDig (digChar d) = true := by
  interval_cases d <;> decide

lemma digVal_digChar {d : Nat} (h : d < 10) : digVal (digChar d) = d := by
  interval_cases d <;> decide

lemma natStrGo_ne_nil : ∀ (fuel n : Nat), n < fuel → natStrGo fuel n ≠ [] := by
  intro fuel
  induction fuel with
  | zero => intro n h; omega
  | succ f ih =>
    intro n _
    by_cases h10 : n < 10
    · simp [natStrGo, h10]
    · simp [natStrGo, h10]

lemma natStrGo_digits : ∀ (fuel n : Nat), n < fuel →
    ∀ c ∈ natStrGo fuel n, isDig c = true := by
  intro fuel
  induction fuel with
  | zero => intro n h; omega
  | succ f ih =>
    intro n hn c hc
    by_cases h10 : n < 10
    · rw [show natStrGo (f + 1) n = [digChar n] from by simp [natStrGo, h10]] at hc
      rw [List.mem_singleton.mp hc]
      exact digChar_isDig h10
    · rw [show natStrGo (f + 1) n = natStrGo f (n / 10) ++ [digChar (n % 10)] from by
        simp [natStrGo, h10]] at hc
      rcases List.mem_append.mp hc with hc' | hc'
      · have hlt : n / 10 < f := by
          have := Nat.div_lt_self (show 0 < n by omega) (show 1 < 10 by omega)
          omega
        exact ih (n / 10) hlt c hc'
      · rw [List.mem_singleton.mp hc']
        exact digChar_isDig (Nat.mod_lt n (by omega))

lemma natStrGo_head_pos : ∀ (fuel n : Nat), n < fuel → 1 ≤ n →
    ∃ c cs, natStrGo fuel n = c :: cs ∧ 49 ≤ c.toNat ∧ c.toNat ≤ 57 := by
  intro fuel
  induction fuel with
  | zero => intro n h; omega
  | succ f ih =>
    intro n hn h1
    by_cases h10 : n < 10
    · refine ⟨digChar n, [], by simp [natStrGo, h10], ?_, ?_⟩ <;>
        (rw [digChar_toNat h10]; omega)
    · have hlt : n / 10 < f := by
        have := Nat.div_lt_self (show 0 < n by omega) (show 1 < 10 by omega)
        omega
      have hpos : 1 ≤ n / 10 := Nat.le_div_iff_mul_le (by omega) |>.mpr (by omega)
      obtain ⟨c, cs, hcs, hc1, hc2⟩ := ih (n / 10) hlt hpos
      exact ⟨c, cs ++ [digChar (n % 10)], by simp [natStrGo, h10, hcs], hc1, hc2⟩

lemma digitsGo_stop (acc : Nat) (rest : List Char)
    (h : ∀ c, rest.head? = some c → isDig c = false) : digitsGo acc rest = (acc, rest) := by
  cases rest with
  | nil => rfl
  | cons c cs =>
    have hc := h c rfl
    simp [digitsGo, hc]

lemma digitsGo_natStrGo : ∀ (fuel n acc : Nat) (rest : List Char), n < fuel →
    digitsGo acc (natStrGo fuel n ++ rest)
      = digitsGo (acc * 10 ^ (natStrGo fuel n).length + n) rest := by
  intro fuel
  induction fuel with
  | zero => intro n acc rest h; omega
  | succ f ih =>
    intro n acc rest hn
    by_cases h10 : n < 10
    · rw [show natStrGo (f + 1) n = [digChar n] from by simp [natStrGo, h10]]
      simp only [List.singleton_append, List.length_singleton, pow_one]
      rw [show digitsGo acc (digChar n :: rest)
          = digitsGo (10 * acc + digVal (digChar n)) rest from by
        simp [digitsGo, digChar_isDig h10]]
      rw [digVal_digChar h10]
      congr 1
      ring
    · have hlt : n / 10 < f := by
        have := Nat.div_lt_self (show 0 < n by omega) (show 1 < 10 by omega)
        omega
      rw [show natStrGo (f + 1) n = natStrGo f (n / 10) ++ [digChar (n % 10)] from by
        simp [natStrGo, h10]]
      rw [List.append_assoc, ih (n / 10) acc _ hlt]
      rw [show ([digChar (n % 10)] : List Char) ++ rest = digChar (n % 10) :: rest from rfl]
      rw [show digitsGo (acc * 10 ^ (natStrGo f (n / 10)).length + n / 10)
            (digChar (n % 10) :: rest)
          = digitsGo (10 * (acc * 10 ^ (natStrGo f (n / 10)).length + n / 10)
              + digVal (digChar (n % 10))) rest from by
        simp [digitsGo, digChar_isDig (Nat.mod_lt n (by omega))]]
      rw [digVal_digChar (Nat.mod_lt n (by omega))]
      congr 1
      rw [List.length_append, List.length_singleton, pow_succ]
      set X := 10 ^ (natStrGo f (n / 10)).length with hX
      have hacc : acc * (X * 10) = (acc * X) * 10 := by ring
      rw [hacc]
      set Y := acc * X with hY
      omega

lemma digitsP_natStr (n : Nat) (rest : List Char)
    (hrest : ∀ c, rest.head? = some c → isDig c = false) :
    digitsP (natStr n ++ rest) = some (n, rest) := by
  have hne := natStrGo_ne_nil (n + 1) n (by omega)
  cases hcs : natStrGo (n + 1) n with
  | nil => exact absurd hcs hne
  | cons c cs =>
    have hd : isDig c = true := natStrGo_digits (n + 1) n (by omega) c
      (by rw [hcs]; exact List.mem_cons_self _ _)
    rw [show natStr n = c :: cs from hcs]
    rw [show (c :: cs) ++ rest = c :: (cs ++ rest) from rfl]
    rw [show digitsP (c :: (cs ++ rest)) = some (digitsGo 0 (c :: (cs ++ rest))) from by
      simp [digitsP, hd]]
    rw [show (c :: (cs ++ rest)) = natStr n ++ rest from by rw [show natStr n = c :: cs from hcs]; rfl]
    rw [show natStr n = natStrGo (n + 1) n from rfl]
    rw [digitsGo_natStrGo (n + 1) n 0 rest (by omega)]
    rw [digitsGo_stop _ _ hrest]
    simp

lemma intStr_ne_nil (i : Int) : intStr i ≠ [] := by
  unfold intStr
  by_cases h : i < 0
  · simp [h]
  · simp only [h, if_false]
    exact natStrGo_ne_nil _ _ (by omega)

lemma signedIntP_intStr (i : Int) (rest : List Char)
    (hrest : ∀ c, rest.head? = some c → isDig c = false) :
    signedIntP (intStr i ++ rest) = some (i, rest) := by
  by_cases hneg : i < 0
  · rw [show intStr i = '-' :: natStr i.natAbs from by simp [intStr, hneg]]
    rw [show ('-' :: natStr i.natAbs) ++ rest = '-' :: (natStr i.natAbs ++ rest) from rfl]
    rw [show signedIntP ('-' :: (natStr i.natAbs ++ rest))
        = ((digitsP (natStr i.natAbs ++ rest)).map (fun p => (-(p.1 : Int), p.2))) from by
      simp [signedIntP]]
    rw [digitsP_natStr _ _ hrest]
    show some (-((i.natAbs : Nat) : Int), rest) = some (i, rest)
    rw [show -((i.natAbs : Nat) : Int) = i from by omega]
  · rw [show intStr i = natStr i.toNat from by simp [intStr, hneg]]
    have hne := natStrGo_ne_nil (i.toNat + 1) i.toNat (by omega)
    cases hcs : natStrGo (i.toNat + 1) i.toNat with
    | nil => exact absurd hcs hne
    | cons c cs =>
      have hd : isDig c = true := natStrGo_digits (i.toNat + 1) i.toNat (by omega) c
        (by rw [hcs]; exact List.mem_cons_self _ _)
      have hcne : ¬(c = '-') := by
        intro hc
        rw [hc] at hd
        exact absurd hd (by decide)
      rw [show natStr i.toNat = c :: cs from hcs]
      rw [show (c :: cs) ++ rest = c :: (cs ++ rest) from rfl]
      rw [show signedIntP (c :: (cs ++ rest))
          = ((digitsP (c :: (cs ++ rest))).map (fun p => ((p.1 : Int), p.2))) from by
        simp [signedIntP, hcne]]
      rw [show (c :: (cs ++ rest)) = natStr i.toNat ++ rest from by
        rw [show natStr i.toNat = c :: cs from hcs]; rfl]
      rw [digitsP_natStr _ _ hrest]
      show some (((i.toNat : Nat) : Int), rest) = some (i, rest)
      rw [show ((i.toNat : Nat) : Int) = i from by omega]

lemma stepP_natStr (n : Nat) (h1 : 1 ≤ n) : stepP (natStr n) = some ((n : Int)) := by
  obtain ⟨c, cs, hcs, h49, h57⟩ := natStrGo_head_pos (n + 1) n (by omega) h1
  have hdig : digitsGo 0 (c :: cs) = (n, []) := by
    rw [show (c :: cs) = natStr n ++ [] from by rw [show natStr n = c :: cs from hcs]; simp]
    rw [show natStr n = natStrGo (n + 1) n from rfl]
    rw [digitsGo_natStrGo (n + 1) n 0 [] (by omega)]
    simp [digitsGo]
  rw [show natStr n = c :: cs from hcs]
  simp only [stepP]
  rw [if_pos (⟨h49, h57⟩ : 49 ≤ c.toNat ∧ c.toNat ≤ 57), hdig]

lemma matchTok_single (x : Int) : matchTok (intStr x) = some (x, none, none) := by
  have h := signedIntP_intStr x [] (by intro c hc; simp at hc)
  simp only [List.append_nil] at h
  unfold matchTok
  rw [h]

lemma matchTok_pair (a b : Int) :
    matchTok (intStr a ++ ('-' :: intStr b)) = some (a, some b, none) := by
  have h1 := signedIntP_intStr a ('-' :: intStr b) (by
    intro c hc
    simp only [List.head?_cons, Option.some.injEq] at hc
    rw [← hc]
    decide)
  have h2 := signedIntP_intStr b [] (by intro c hc; simp at hc)
  simp only [List.append_nil] at h2
  unfold matchTok
  rw [h1]
  simp [h2]

lemma matchTok_stepped (a b g : Int) (hg : 1 ≤ g) :
    matchTok (intStr a ++ ('-' :: (intStr b ++ ('x' :: intStr g))))
      = some (a, some b, some g) := by
  have h1 := signedIntP_intStr a ('-' :: (intStr b ++ ('x' :: intStr g))) (by
    intro c hc
    simp only [List.head?_cons, Option.some.injEq] at hc
    rw [← hc]
    decide)
  have hxhd : ∀ c, (('x' :: intStr g) : List Char).head? = some c → isDig c = false := by
    intro c hc
    simp only [List.head?_cons, Option.some.injEq] at hc
    rw [← hc]
    decide
  have h2 := signedIntP_intStr b ('x' :: intStr g) hxhd
  have h3 : stepP (intStr g) = some g := by
    rw [show intStr g = natStr g.toNat from by simp [intStr, show ¬(g < 0) from by omega]]
    rw [stepP_natStr g.toNat (by omega)]
    congr 1
    omega
  unfold matchTok
  rw [h1]
  simp [h2, h3]

/-! ## Claim C1: an arithmetic run is reproduced by `_range` -/

lemma rangeGo_empty (fuel : Nat) (i hi sv : Int) (h : hi < i) :
    rangeGo fuel i hi sv = [] := by
  cases fuel with
  | zero => rfl
  | succ f => simp [rangeGo, show ¬(i ≤ hi) from by omega]

lemma jsRange_single (x : Int) : jsRange x none none = [x] := by
  unfold jsRange
  simp only [Option.getD_none, min_self, max_self, sub_self, Int.toNat_zero]
  simp [rangeGo]

lemma chain_head_le_last : ∀ (p : List Int) (y g : Int), 1 ≤ g →
    List.Chain (fun u v => v - u = g) y p → y ≤ (y :: p).getLastD y := by
  intro p
  induction p with
  | nil => intro y g _ _; simp
  | cons z p' ih =>
    intro y g hg hch
    obtain ⟨hz, hch'⟩ := List.chain_cons.mp hch
    have hih := ih z g hg hch'
    rw [List.getLastD_cons, List.getLastD_cons]
    rw [List.getLastD_cons] at hih
    omega

lemma rangeGo_chain : ∀ (p : List Int) (a g : Int) (fuel : Nat), 1 ≤ g →
    List.Chain (fun u v => v - u = g) a p →
    (a :: p).getLastD a - a < fuel →
    rangeGo fuel a ((a :: p).getLastD a) g = a :: p := by
  intro p
  induction p with
  | nil =>
    intro a g fuel hg _ hfuel
    simp only [List.getLastD_cons, List.getLastD_nil] at hfuel ⊢
    cases fuel with
    | zero => omega
    | succ f =>
      show (if a ≤ a then a :: rangeGo f (a + g) a g else []) = [a]
      rw [if_pos le_rfl, rangeGo_empty f (a + g) a g (by omega)]
  | cons y p' ih =>
    intro a g fuel hg hch hfuel
    obtain ⟨hy, hch'⟩ := List.chain_cons.mp hch
    have hL : (a :: y :: p').getLastD a = (y :: p').getLastD y := by
      rw [List.getLastD_cons, List.getLastD_cons, List.getLastD_cons]
    rw [hL] at hfuel ⊢
    have hyb : y ≤ (y :: p').getLastD y := chain_head_le_last p' y g hg hch'
    cases fuel with
    | zero => omega
    | succ f =>
      show (if a ≤ (y :: p').getLastD y then
          a :: rangeGo f (a + g) ((y :: p').getLastD y) g else []) = a :: y :: p'
      rw [if_pos (by omega)]
      have hstep := ih y g f hg hch' (by
        rw [List.getLastD_cons] at hfuel ⊢
        omega)
      rw [List.getLastD_cons] at hstep
      rw [show a + g = y from by omega]
      rw [List.getLastD_cons, hstep]

lemma jsRange_run (a g : Int) (p : List Int) (hg : 1 ≤ g)
    (hch : List.Chain (fun u v => v - u = g) a p) :
    jsRange a (some ((a :: p).getLastD a)) (some g) = a :: p := by
  have hab : a ≤ (a :: p).getLastD a := by
    have := chain_head_le_last p a g hg hch
    rw [List.getLastD_cons]
    rw [List.getLastD_cons] at this
    exact this
  unfold jsRange
  simp only [Option.getD_some]
  rw [min_eq_left hab, max_eq_right hab, max_eq_right hg]
  refine rangeGo_chain p a g _ hg hch ?_
  have := Int.self_le_toNat ((a :: p).getLastD a - a)
  omega

/-- Each nonempty, strictly-ascending progression run is rendered by
`renderRun` into a token that `PROGRESSION_SPEC_REGEX` matches, and whose
`_range` expansion reproduces the run exactly. -/
lemma renderRun_roundtrip (p : List Int) (hne : p ≠ []) (hcan : Canonical p)
    (hprog : isProgression p = true) :
    ∃ flt : Int × Option Int × Option Int,
      matchTok (renderRun p) = some flt ∧ jsRange flt.1 flt.2.1 flt.2.2 = p := by
  match p with
  | [] => exact absurd rfl hne
  | [x] =>
    refine ⟨(x, none, none), ?_, jsRange_single x⟩
    rw [show renderRun [x] = intStr x from rfl]
    exact matchTok_single x
  | x :: y :: rest =>
    have hxy : x < y := (List.chain'_cons.mp hcan).1
    obtain ⟨g0, hg0⟩ := (isProgression_iff _).mp hprog
    have hchain0 : List.Chain (fun u v => v - u = g0) x (y :: rest) := hg0
    have hgeq : y - x = g0 := (List.chain_cons.mp hchain0).1
    have hchain : List.Chain (fun u v => v - u = y - x) x (y :: rest) := by
      rw [hgeq]
      exact hchain0
    have hg1 : 1 ≤ y - x := by omega
    have hlast : ((x :: y :: rest).getLastD x) = (y :: rest).getLastD y := by
      rw [List.getLastD_cons, List.getLastD_cons, List.getLastD_cons]
    have hjr := jsRange_run x (y - x) (y :: rest) hg1 hchain
    rw [hlast] at hjr
    by_cases hcase : y - x = 1
    · refine ⟨(x, some ((y :: rest).getLastD y), none), ?_, ?_⟩
      · rw [show renderRun (x :: y :: rest)
            = intStr x ++ ('-' :: intStr ((y :: rest).getLastD y)) from by
          simp [renderRun, hcase]]
        exact matchTok_pair x _
      · show jsRange x (some ((y :: rest).getLastD y)) none = x :: y :: rest
        have hnone : jsRange x (some ((y :: rest).getLastD y)) none
            = jsRange x (some ((y :: rest).getLastD y)) (some 1) := rfl
        rw [hnone, ← hcase]
        exact hjr
    · refine ⟨(x, some ((y :: rest).getLastD y), some (y - x)), ?_, ?_⟩
      · rw [show renderRun (x :: y :: rest)
            = (intStr x ++ ('-' :: intStr ((y :: rest).getLastD y)))
              ++ ('x' :: intStr (y - x)) from by
          simp [renderRun, hcase]]
        rw [List.append_assoc, List.cons_append]
        exact matchTok_stepped x _ (y - x) hg1
      · exact hjr

/-! ## Claim C1: rendered tokens contain no separators, and joining with a
comma splits back into exactly the rendered tokens -/

lemma isSep_of_isDig {c : Char} (h : isDig c = true) : isSep c = false := by
  have hn : 48 ≤ c.toNat ∧ c.toNat ≤ 57 := by
    simpa [isDig, Bool.and_eq_true, decide_eq_true_eq] using h
  rw [Bool.eq_false_iff]
  intro hsep
  simp only [isSep, Bool.or_eq_true, beq_iff_eq, Bool.and_eq_true,
    decide_eq_true_eq] at hsep
  omega

lemma intStr_sepfree (i : Int) : ∀ c ∈ intStr i, isSep c = false := by
  intro c hc
  unfold intStr at hc
  by_cases h : i < 0
  · rw [if_pos h] at hc
    rcases List.mem_cons.mp hc with rfl | hc'
    · decide
    · exact isSep_of_isDig (natStrGo_digits _ _ (by omega) c hc')
  · rw [if_neg h] at hc
    exact isSep_of_isDig (natStrGo_digits _ _ (by omega) c hc)

lemma renderRun_sepfree (p : List Int) : ∀ c ∈ renderRun p, isSep c = false := by
  intro c hc
  match p with
  | [] => cases hc
  | [x] => exact intStr_sepfree x c hc
  | x :: y :: rest =>
    by_cases hcase : y - x = 1
    · rw [show renderRun (x :: y :: rest)
          = intStr x ++ ('-' :: intStr ((y :: rest).getLastD y)) from by
        simp [renderRun, hcase]] at hc
      rcases List.mem_append.mp hc with h1 | h1
      · exact intStr_sepfree x c h1
      · rcases List.mem_cons.mp h1 with rfl | h2
        · decide
        · exact intStr_sepfree _ c h2
    · rw [show renderRun (x :: y :: rest)
          = (intStr x ++ ('-' :: intStr ((y :: rest).getLastD y)))
            ++ ('x' :: intStr (y - x)) from by
        simp [renderRun, hcase]] at hc
      rcases List.mem_append.mp hc with h1 | h1
      · rcases List.mem_append.mp h1 with h2 | h2
        · exact intStr_sepfree x c h2
        · rcases List.mem_cons.mp h2 with rfl | h3
          · decide
          · exact intStr_sepfree _ c h3
      · rcases List.mem_cons.mp h1 with rfl | h2
        · decide
        · exact intStr_sepfree _ c h2

lemma renderRun_ne_nil (p : List Int) (hne : p ≠ []) : renderRun p ≠ [] := by
  match p with
  | [x] => exact intStr_ne_nil x
  | x :: y :: rest =>
    by_cases hcase : y - x = 1
    · rw [show renderRun (x :: y :: rest)
          = intStr x ++ ('-' :: intStr ((y :: rest).getLastD y)) from by
        simp [renderRun, hcase]]
      simp [intStr_ne_nil]
    · rw [show renderRun (x :: y :: rest)
          = (intStr x ++ ('-' :: intStr ((y :: rest).getLastD y)))
            ++ ('x' :: intStr (y - x)) from by
        simp [renderRun, hcase]]
      simp [intStr_ne_nil]

lemma splitGo_sepfree_all : ∀ (t : List Char) (fuel : Nat) (acc : List Char),
    (∀ c ∈ t, isSep c = false) → t.length ≤ fuel →
    splitGo fuel acc t = [acc.reverse ++ t] := by
  intro t
  induction t with
  | nil =>
    intro fuel acc _ _
    cases fuel <;> simp [splitGo]
  | cons c t' ih =>
    intro fuel acc hsf hlen
    cases fuel with
    | zero => simp at hlen
    | succ f =>
      show splitGo (f + 1) acc (c :: t') = _
      simp only [splitGo]
      rw [if_neg (by rw [hsf c (List.mem_cons_self c t')]; simp)]
      rw [ih f (c :: acc) (fun d hd => hsf d (List.mem_cons_of_mem c hd)) (by
        simp at hlen
        omega)]
      simp

lemma splitGo_append : ∀ (t : List Char) (fuel : Nat) (acc l : List Char),
    (∀ c ∈ t, isSep c = false) →
    splitGo (t.length + fuel) acc (t ++ l) = splitGo fuel (t.reverse ++ acc) l := by
  intro t
  induction t with
  | nil => intro fuel acc l _; simp
  | cons c t' ih =>
    intro fuel acc l hsf
    show splitGo (t'.length + 1 + fuel) acc (c :: (t' ++ l)) = _
    rw [show t'.length + 1 + fuel = (t'.length + fuel) + 1 from by omega]
    simp only [splitGo]
    rw [if_neg (by rw [hsf c (List.mem_cons_self c t')]; simp)]
    rw [ih fuel (c :: acc) l (fun d hd => hsf d (List.mem_cons_of_mem c hd))]
    congr 1
    simp

lemma intercalate_cons_cons (t t₂ : List Char) (toks : List (List Char)) :
    List.intercalate [','] (t :: t₂ :: toks)
      = t ++ (',' :: List.intercalate [','] (t₂ :: toks)) := by
  simp [List.intercalate, List.intersperse]

lemma intercalate_head (t₂ : List Char) (toks : List (List Char)) :
    ∃ tail, List.intercalate [','] (t₂ :: toks) = t₂ ++ tail := by
  cases toks with
  | nil => exact ⟨[], by simp [List.intercalate]⟩
  | cons t₃ toks' => exact ⟨',' :: List.intercalate [','] (t₃ :: toks'),
      intercalate_cons_cons t₂ t₃ toks'⟩

lemma splitSpec_intercalate : ∀ (toks : List (List Char)), toks ≠ [] →
    (∀ t ∈ toks, t ≠ [] ∧ ∀ c ∈ t, isSep c = false) →
    ∀ fuel : Nat, (List.intercalate [','] toks).length < fuel →
      splitGo fuel [] (List.intercalate [','] toks) = toks := by
  intro toks
  induction toks with
  | nil => intro h; exact absurd rfl h
  | cons t toks' ih =>
    intro _ hprops fuel hfuel
    cases toks' with
    | nil =>
      rw [show List.intercalate [','] [t] = t from by simp [List.intercalate]] at hfuel ⊢
      rw [splitGo_sepfree_all t fuel []
        (hprops t (List.mem_cons_self t [])).2 (by omega)]
      simp
    | cons t₂ toks'' =>
      rw [intercalate_cons_cons t t₂ toks''] at hfuel ⊢
      have htsf := (hprops t (List.mem_cons_self t _)).2
      have htlen : t.length < fuel := by
        simp only [List.length_append, List.length_cons] at hfuel
        omega
      rw [show fuel = t.length + (fuel - t.length) from by omega]
      rw [splitGo_append t (fuel - t.length) [] _ htsf]
      have hrem : 1 ≤ fuel - t.length := by
        simp only [List.length_append, List.length_cons] at hfuel
        omega
      obtain ⟨f', hf'⟩ : ∃ f', fuel - t.length = f' + 1 := ⟨fuel - t.length - 1, by omega⟩
      rw [hf']
      show splitGo (f' + 1) (t.reverse ++ []) (',' :: List.intercalate [','] (t₂ :: toks''))
          = t :: t₂ :: toks''
      simp only [splitGo, show isSep ',' = true from by decide, if_pos]
      have hdrop : (List.intercalate [','] (t₂ :: toks'')).dropWhile isSep
          = List.intercalate [','] (t₂ :: toks'') := by
        obtain ⟨tail, htail⟩ := intercalate_head t₂ toks''
        have ht₂ := hprops t₂ (List.mem_cons_of_mem t (List.mem_cons_self t₂ toks''))
        cases hc₂ : t₂ with
        | nil => exact absurd hc₂ ht₂.1
        | cons c₂ cs₂ =>
          rw [hc₂] at htail
          rw [htail]
          show ((c₂ :: (cs₂ ++ tail)) : List Char).dropWhile isSep = c₂ :: (cs₂ ++ tail)
          rw [List.dropWhile_cons]
          rw [show isSep c₂ = false from ht₂.2 c₂ (by rw [hc₂]; exact List.mem_cons_self _ _)]
          simp
      rw [hdrop]
      rw [ih (List.cons_ne_nil t₂ toks'')
        (fun u hu => hprops u (List.mem_cons_of_mem t hu)) f' (by
          simp only [List.length_append, List.length_cons] at hfuel
          omega)]
      simp

/-! ## Claim C1: assembling the round-trip -/

lemma progGo_result_ne_nil : ∀ (l curr : List Int), progGo curr l ≠ [] := by
  intro l
  induction l with
  | nil => intro curr; simp [progGo]
  | cons x xs ih =>
    intro curr
    simp only [progGo]
    split
    · exact ih (curr ++ [x])
    · simp

/-- Expanding the rendered tokens of a list of canonical progression runs
recovers exactly their concatenation. -/
lemma expandToks_parts : ∀ parts : List (List Int),
    (∀ p ∈ parts, p ≠ [] ∧ Canonical p ∧ isProgression p = true) →
    expandToks (parts.map renderRun) = .ok parts.flatten := by
  intro parts
  induction parts with
  | nil => intro _; rfl
  | cons p parts' ih =>
    intro h
    obtain ⟨hne, hcan, hprog⟩ := h p (List.mem_cons_self p parts')
    obtain ⟨⟨f, l, st⟩, hmt, hjr⟩ := renderRun_roundtrip p hne hcan hprog
    simp only [List.map_cons, expandToks, hmt]
    rw [ih (fun q hq => h q (List.mem_cons_of_mem p hq))]
    simp only [List.flatten_cons]
    rw [show jsRange f l st = p from hjr]

/-- C1: round-trip.  For every Sequence constructed from a non-empty frame
list, parsing the string returned by `spec()` through the constructor's
spec-string branch yields exactly the same Sequence — `_spec` is the exact
inverse of the spec-string parser on every canonical (sorted,
deduplicated) frame list, negative frames included. -/
theorem c1_roundtrip (l : List Int) (h : l ≠ []) :
    mkSeq (.strArg (Sequence.spec (mkFromList l))) = .ok (mkFromList l) := by
  have hcan : Canonical (dedupSort l) := canonical_dedupSort l
  have hfne : dedupSort l ≠ [] := by
    obtain ⟨x, hx⟩ := List.exists_mem_of_ne_nil l h
    intro hn
    have hmem := mem_dedupSort.mpr hx
    rw [hn] at hmem
    exact List.not_mem_nil x hmem
  have hsorted : sortAsc (dedupSort l) = dedupSort l :=
    sortAsc_eq_self (canonical_sorted hcan)
  have hflat : (progRuns (dedupSort l)).flatten = dedupSort l := by
    unfold progRuns
    rw [hsorted]
    simpa using progGo_flatten (dedupSort l) []
  have hrunprops : ∀ p ∈ progRuns (dedupSort l),
      p ≠ [] ∧ Canonical p ∧ isProgression p = true := by
    intro p hp
    have hmid : Canonical p := by
      have hinf : p <:+: (progRuns (dedupSort l)).flatten := List.infix_of_mem_flatten hp
      rw [hflat] at hinf
      exact chain_middle hinf hcan
    unfold progRuns at hp
    rw [hsorted] at hp
    cases hd : dedupSort l with
    | nil => exact absurd hd hfne
    | cons x xs =>
      rw [hd, progGo_nil_cons] at hp
      exact ⟨progGo_ne_nil xs [x] (by simp) p hp, hmid, progGo_prog xs [x] rfl p hp⟩
  have hiE : (dedupSort l).isEmpty = false := by
    cases hd : dedupSort l with
    | nil => exact absurd hd hfne
    | cons x xs => rfl
  have hspec : Sequence.spec (mkFromList l)
      = String.mk (List.intercalate [','] ((progRuns (dedupSort l)).map renderRun)) := by
    show specOf (dedupSort l) = _
    unfold specOf
    rw [hiE]
    rfl
  have htoksne : (progRuns (dedupSort l)).map renderRun ≠ [] := by
    simp only [ne_eq, List.map_eq_nil_iff]
    exact progGo_result_ne_nil (sortAsc (dedupSort l)) []
  have htokprops : ∀ t ∈ (progRuns (dedupSort l)).map renderRun,
      t ≠ [] ∧ ∀ c ∈ t, isSep c = false := by
    intro t ht
    obtain ⟨p, hp, rfl⟩ := List.mem_map.mp ht
    exact ⟨renderRun_ne_nil p (hrunprops p hp).1, renderRun_sepfree p⟩
  have htoks : splitSpec (String.mk
        (List.intercalate [','] ((progRuns (dedupSort l)).map renderRun)))
      = (progRuns (dedupSort l)).map renderRun := by
    unfold splitSpec
    exact splitSpec_intercalate _ htoksne htokprops _ (Nat.lt_succ_self _)
  rw [hspec]
  have hexp := expandToks_parts (progRuns (dedupSort l)) hrunprops
  have hparse : parseSpecStr (String.mk
      (List.intercalate [','] ((progRuns (dedupSort l)).map renderRun)))
      = .ok (dedupSort l) := by
    unfold parseSpecStr
    rw [htoks, hexp]
    show (Except.ok (dedupSort ((progRuns (dedupSort l)).flatten))
        : Except JsError (List Int)) = .ok (dedupSort l)
    rw [hflat, dedupSort_eq_self hcan]
  simp only [mkSeq, flatten, hparse]
  rfl

/-- C1, witness at a concrete frame list with a negative frame and
several runs. -/
theorem c1_witness :
    mkSeq (.strArg (Sequence.spec (mkFromList [7, -3, 1, 3, 5, 20]))) =
      .ok (mkFromList [7, -3, 1, 3, 5, 20]) :=
  c1_roundtrip [7, -3, 1, 3, 5, 20] (by decide)
